import Mathlib

/-!
Shallow embedding (in Lean 4) of the cell-move-router sources, together with
theorems settling the frozen claims about the repository.

Conventions of the embedding:
  - Rust `usize` is modelled as `Nat`; where wrap-around of a 64-bit machine
    integer matters it is written explicitly modulo `2 ^ 64`.
  - Rust `HashSet`/`HashMap` iteration (whose order is unspecified) is
    modelled by `List`s in insertion order; every fact proved below is
    independent of that order or is evaluated on concrete inputs.
  - Fallible Rust code (`Option`/`Result`, index panics) is modelled with
    `Option`; recursion whose termination Rust obtains from data-structure
    invariants is given an explicit fuel argument, and theorems take the
    success of the recursion as a hypothesis (always satisfied in real runs).
-/

/-! ## Union-find (src/utilities.rs) -/

/-- A node of the disjoint-set forest: `UnionFindNode` of utilities.rs,
with fields `head` (parent index) and `height` (rank, used at roots). -/
structure UnionFindNode where
  head : Nat
  height : Nat
deriving DecidableEq, Repr

/-- The disjoint-set forest: `UnionFind` of utilities.rs. -/
structure UnionFind where
  nodes : List UnionFindNode
deriving DecidableEq, Repr

/-- `UnionFind::new(size)`: every index is its own head with height 0. -/
def UnionFind.make (size : Nat) : UnionFind :=
  ⟨(List.range size).map (fun idx => ⟨idx, 0⟩)⟩

/-- `UnionFind::len`. -/
def UnionFind.len (uf : UnionFind) : Nat := uf.nodes.length

/-- `UnionFind::find` (utilities.rs, no path compression).  The Rust
recursion terminates because parent pointers are acyclic; the embedding
carries explicit fuel and returns `none` when fuel runs out (which never
happens in an actual run). -/
def findAux : Nat → List UnionFindNode → Nat → Option Nat
  | 0, _, _ => none
  | fuel+1, nodes, index =>
    match nodes[index]? with
    | none => none
    | some nd => if nd.head = index then some index else findAux fuel nodes nd.head

/-- `UnionFind::find` with the fuel that suffices for every reachable state. -/
def UnionFind.find (uf : UnionFind) (index : Nat) : Option Nat :=
  findAux (uf.len + 1) uf.nodes index

/-- `UnionFind::done`: true iff all elements share one representative.
The Rust code collects `find` of every index into a `HashSet` and compares
its size with 1; the embedding deduplicates the list of results. -/
def UnionFind.done (uf : UnionFind) : Bool :=
  ((List.range uf.len).map (fun idx => uf.find idx)).dedup.length = 1

/-- `UnionFind::find_mut` (utilities.rs, with path compression): returns the
representative and the rewritten node list.  Fuel as in `findAux`. -/
def findMutAux : Nat → List UnionFindNode → Nat → Option (Nat × List UnionFindNode)
  | 0, _, _ => none
  | fuel+1, nodes, index =>
    match nodes[index]? with
    | none => none
    | some nd =>
      if nd.head = index then some (index, nodes)
      else
        match findMutAux fuel nodes nd.head with
        | none => none
        | some (ans, nodes1) =>
          match nodes1[index]? with
          | none => none
          | some nd1 => some (ans, nodes1.set index ⟨ans, nd1.height⟩)

/-- `UnionFind::join` (utilities.rs): union by rank of two roots; on equal
heights the second argument survives and its height is incremented. -/
def joinNodes (nodes : List UnionFindNode) (a b : Nat) : Option (List UnionFindNode) := do
  let heighta := (← nodes[a]?).height
  let heightb := (← nodes[b]?).height
  if heightb < heighta then
    let ndb ← nodes[b]?
    some (nodes.set b ⟨a, ndb.height⟩)
  else
    let nda ← nodes[a]?
    let nodes1 := nodes.set a ⟨b, nda.height⟩
    if heighta = heightb then
      let ndb ← nodes1[b]?
      some (nodes1.set b ⟨ndb.head, ndb.height + 1⟩)
    else
      some nodes1

/-- `UnionFind::union_checked` (utilities.rs): compress both arguments, and
join the two roots when they differ.  Returns whether a merge happened. -/
def unionChecked (fuel : Nat) (uf : UnionFind) (a b : Nat) :
    Option (Bool × UnionFind) := do
  let (heada, nodes1) ← findMutAux fuel uf.nodes a
  let (headb, nodes2) ← findMutAux fuel nodes1 b
  if heada = headb then
    some (false, ⟨nodes2⟩)
  else
    let nodes3 ← joinNodes nodes2 heada headb
    some (true, ⟨nodes3⟩)

/-! ## Geometry, directions and identifier codec (src/components.rs) -/

/-- Routing preference of a layer (`Direction`, components.rs). -/
inductive Direction where
  | Horizontal
  | Vertical
deriving DecidableEq, Repr

/-- Sign-and-axis classification of a route (`Towards`, components.rs). -/
inductive Towards where
  | Up
  | Down
  | Left
  | Right
  | Top
  | Bottom
deriving DecidableEq, Repr

/-- `Towards::inv`: the opposite direction. -/
def Towards.inv : Towards → Towards
  | .Up => .Down
  | .Down => .Up
  | .Left => .Right
  | .Right => .Left
  | .Top => .Bottom
  | .Bottom => .Top

/-- `Pair(x, y)` of components.rs at `usize`; `x` is the row, `y` the
column (comment in `Pair::size`). -/
structure Pair where
  x : Nat
  y : Nat
deriving DecidableEq, Repr

/-- `Point(row, col, lay)` of components.rs at `usize`. -/
structure Point where
  row : Nat
  col : Nat
  lay : Nat
deriving DecidableEq, Repr

/-- `Route(source, target)` of components.rs at `usize`. -/
structure Route where
  source : Point
  target : Point
deriving DecidableEq, Repr

/-- `Point::flatten`: drop the layer. -/
def Point.flatten (p : Point) : Pair := ⟨p.row, p.col⟩

/-- `Pair::with(lay)`: attach a layer. -/
def Pair.withLay (p : Pair) (lay : Nat) : Point := ⟨p.x, p.y, lay⟩

/-- `Route::vector`: the signed componentwise difference target − source
(computed in `isize` in Rust; no overflow for realistic grids). -/
def Route.vector (r : Route) : Int × Int × Int :=
  ((r.target.row : Int) - (r.source.row : Int),
   (r.target.col : Int) - (r.source.col : Int),
   (r.target.lay : Int) - (r.source.lay : Int))

/-- `Route::towards`: categorize `vector`.  The Rust function panics
(`unreachable!`) on a zero or non-axis-aligned vector; the embedding
returns `none` there.  Match arms in source order. -/
def Route.towards (r : Route) : Option Towards :=
  match r.vector with
  | (drow, dcol, dlay) =>
    if drow = 0 ∧ dcol = 0 ∧ dlay = 0 then none
    else if dcol = 0 ∧ dlay = 0 then some (if 0 < drow then .Right else .Left)
    else if drow = 0 ∧ dlay = 0 then some (if 0 < dcol then .Up else .Down)
    else if drow = 0 ∧ dcol = 0 then some (if 0 < dlay then .Top else .Bottom)
    else none

/-- Little-endian decimal digits of `n`; fuel-driven, `fuel ≥ n` suffices
(one digit consumes one unit and `n / 10 < n`). -/
def natDigitsRev : Nat → Nat → List Nat
  | 0, _ => []
  | fuel+1, n => if n = 0 then [] else n % 10 :: natDigitsRev fuel (n / 10)

/-- Character of a decimal digit. -/
def digitChar (d : Nat) : Char := Char.ofNat (48 + d)

/-- The decimal numeral of `n`, most significant digit first: what Rust
`format!` prints for an unsigned integer. -/
def natChars (n : Nat) : List Char :=
  if n = 0 then [Char.ofNat 48] else ((natDigitsRev n n).reverse).map digitChar

/-- Numeric value of a decimal digit character, `none` otherwise. -/
def charDigit (c : Char) : Option Nat :=
  if 48 ≤ c.toNat ∧ c.toNat ≤ 57 then some (c.toNat - 48) else none

/-- Rust `usize::from_str` over a name modelled as `List Char`: an optional
leading plus sign, then one or more decimal digits; a value of `2 ^ 64` or
more is a `PosOverflow` error (64-bit `usize`). -/
def parseUsizeCore (l : List Char) : Option Nat :=
  if l.isEmpty then none
  else
    (l.foldl (fun acc c => acc.bind fun a => (charDigit c).map fun d => a * 10 + d)
      (some 0)).bind fun v => if v < 2 ^ 64 then some v else none

/-- Rust `usize::from_str` including the optional leading plus sign. -/
def parseUsize (s : List Char) : Option Nat :=
  match s with
  | c :: rest => if c = Char.ofNat 43 then parseUsizeCore rest else parseUsizeCore (c :: rest)
  | [] => none

/-- `FactoryID::from_str` (components.rs) for a type whose prefix is `pfx`:
drop `pfx.length` characters (the prefix is never compared!), parse the
rest as `usize` and subtract one.  The subtraction is `usize` arithmetic:
it wraps modulo `2 ^ 64` as in a release build (a debug build panics on the
suffix `0`).  Rust slices by bytes and panics when the name is shorter than
the prefix; `List.drop` is total there, a case no theorem below relies on. -/
def factoryFromStr (pfx : List Char) (name : List Char) : Option Nat :=
  (parseUsize (name.drop pfx.length)).map (fun n => (n + (2 ^ 64 - 1)) % 2 ^ 64)

/-- `FactoryID::from_numeric` (components.rs): the prefix followed by the
numeral of `id + 1` (wrapping at `2 ^ 64` as `usize` addition does). -/
def factoryFromNumeric (pfx : List Char) (id : Nat) : List Char :=
  pfx ++ natChars ((id + 1) % 2 ^ 64)

/-- Prefix of `Layer` (`impl FactoryID for Layer`). -/
def layerPfx : List Char := [Char.ofNat 77]

/-! ## Net trees (src/components.rs) -/

/-- `Pointer { index, height }` of components.rs. -/
structure Pointer where
  index : Nat
  height : Nat
deriving DecidableEq, Repr

/-- `NetNode` of components.rs: optional pin id, planar position, four
planar neighbour slots. -/
structure NetNode where
  id : Option Nat
  position : Pair
  up : Option Pointer
  down : Option Pointer
  left : Option Pointer
  right : Option Pointer
deriving DecidableEq, Repr

/-- `NetNode::neightbors` (sic): the four planar slots in order. -/
def NetNode.neightbors (n : NetNode) : List (Option Pointer) :=
  [n.up, n.down, n.left, n.right]

/-- Value of `usize::MAX` for the 64-bit targets the crate is built for. -/
def USIZE_MAX : Nat := 2 ^ 64 - 1

/-- `NetNode::span`: fold `(min, max)` of all neighbour pointer heights,
starting from `(usize::MAX, usize::MIN)`. -/
def NetNode.span (n : NetNode) : Nat × Nat :=
  ((List.filterMap (fun opt => opt) n.neightbors).map Pointer.height).foldl
    (fun mm h => (min mm.1 h, max mm.2 h)) (USIZE_MAX, 0)

/-- `NetNode::index`: the slot for a planar direction (`Top`/`Bottom` are
`unreachable!` in Rust; the embedding returns `none`). -/
def NetNode.index (n : NetNode) : Towards → Option Pointer
  | .Up => n.up
  | .Down => n.down
  | .Left => n.left
  | .Right => n.right
  | .Top => none
  | .Bottom => none

/-- `NetTree` of components.rs. -/
structure NetTree where
  nodes : List NetNode
deriving DecidableEq, Repr

/-- One step of the fold in `NetTree::positions`: `entry(position).or_insert(None)`
then overwrite when the new id is `Some`.  (`HashMap` insertion modelled as
an association list in first-insertion order.) -/
def catalogInsert (acc : List (Pair × Option Nat)) (entry : Pair × Option Nat) :
    List (Pair × Option Nat) :=
  if (acc.map Prod.fst).contains entry.1 then
    if entry.2.isSome then
      acc.map (fun pr => if pr.1 = entry.1 then (pr.1, entry.2) else pr)
    else acc
  else acc ++ [entry]

/-- `NetTree::positions`: catalogue every flattened segment endpoint (value
`None`) chained with every connected pin position (value `Some pin`);
`Some` wins over `None`.  Rust panics when `pin_position` has no entry for
a pin; the embedding skips such pins (no theorem relies on that case). -/
def positionsCatalog (conn_pins : List Nat) (segments : List Route)
    (pin_position : Nat → Option Pair) : List (Pair × Option Nat) :=
  let segs := segments.flatMap
    (fun r => [(r.source.flatten, (none : Option Nat)), (r.target.flatten, none)])
  let pins := conn_pins.filterMap
    (fun idx => (pin_position idx).map (fun pos => (pos, some idx)))
  (segs ++ pins).foldl catalogInsert []

/-- Sorted column values of the catalogued positions in row `r`
(`pos_by_row` in `into_atomic_segments`; the push-then-sort of Rust is
modelled by sorting the filtered projections). -/
def posByRow (positions : List Pair) (r : Nat) : List Nat :=
  List.insertionSort (· ≤ ·) ((positions.filter (fun p => p.x = r)).map Pair.y)

/-- Sorted row values of the catalogued positions in column `c`
(`pos_by_col` in `into_atomic_segments`). -/
def posByCol (positions : List Pair) (c : Nat) : List Nat :=
  List.insertionSort (· ≤ ·) ((positions.filter (fun p => p.y = c)).map Pair.x)

/-- `NetTree::break_single_segment`: orient the route upward along its axis,
restrict the sorted bucket `pos` to the endpoint interval (inclusive), and
emit one route per adjacent pair of the restricted list. -/
def breakSingleSegment (route : Route) (pos : List Nat) (dir : Direction) :
    List Route :=
  let st : Point × Point :=
    match dir with
    | .Horizontal =>
      if route.target.row < route.source.row then (route.target, route.source)
      else (route.source, route.target)
    | .Vertical =>
      if route.target.col < route.source.col then (route.target, route.source)
      else (route.source, route.target)
  let source := st.1
  let target := st.2
  let lo : Nat := match dir with | .Horizontal => source.row | .Vertical => source.col
  let hi : Nat := match dir with | .Horizontal => target.row | .Vertical => target.col
  let filtered := pos.filter (fun e => lo ≤ e ∧ e ≤ hi)
  let pairs := filtered.zip filtered.tail
  match dir with
  | .Horizontal =>
    pairs.map (fun st2 => ⟨⟨st2.1, source.col, source.lay⟩, ⟨st2.2, target.col, target.lay⟩⟩)
  | .Vertical =>
    pairs.map (fun st2 => ⟨⟨source.row, st2.1, source.lay⟩, ⟨target.row, st2.2, target.lay⟩⟩)

/-- `NetTree::into_atomic_segments`: keep the planar routes, pick the
bucket sharing the fixed coordinate, and fragment each route at every
bucketed value inside its span. -/
def intoAtomicSegments (segments : List Route) (positions : List Pair) :
    List Route :=
  (segments.filter (fun route =>
    match route.towards with
    | some .Up | some .Down | some .Left | some .Right => true
    | _ => false)).flatMap
    (fun route =>
      match route.towards with
      | some .Left | some .Right =>
        breakSingleSegment route (posByCol positions route.source.col) .Horizontal
      | some .Up | some .Down =>
        breakSingleSegment route (posByRow positions route.source.row) .Vertical
      | _ => [])

/-- The closure `set_node` of `NetTree::connect`: write `Pointer(oi, height)`
into slot `d` of node `si`.  Rust panics on a bad index (`expect`) and hits
`unreachable!` on Top/Bottom; the embedding leaves the list unchanged
there. -/
def setNodeSlot (height : Nat) (nodes : List NetNode) (si oi : Nat)
    (d : Towards) : List NetNode :=
  match nodes[si]? with
  | none => nodes
  | some nd =>
    let ptr : Option Pointer := some ⟨oi, height⟩
    nodes.set si
      (match d with
       | .Up => {nd with up := ptr}
       | .Down => {nd with down := ptr}
       | .Left => {nd with left := ptr}
       | .Right => {nd with right := ptr}
       | .Top => nd
       | .Bottom => nd)

/-- `NetTree::connect`: install the pointer pair for one accepted edge —
slot `diff` of `sindex` and slot `diff.inv` of `oindex`. -/
def NetTree.connect (nodes : List NetNode) (sindex oindex height : Nat)
    (diff : Towards) : List NetNode :=
  setNodeSlot height (setNodeSlot height nodes sindex oindex diff) oindex sindex diff.inv

/-- The union-find/node-list fold at the heart of `NetTree::new`: walk the
atomic segments; a `union` that merges installs the symmetric pointer pair.
Top/Bottom or unclassifiable routes are `unreachable!` in Rust (atomic
segments are always planar); fuel and lookup failures likewise cannot occur
and leave the state unchanged. -/
def NetTree.buildStep (lookup : Pair → Option Nat) (fuel : Nat)
    (st : UnionFind × List NetNode) (route : Route) : UnionFind × List NetNode :=
  match route.towards with
  | some Towards.Top => st
  | some Towards.Bottom => st
  | none => st
  | some d =>
    let height := route.source.lay
    match lookup route.source.flatten, lookup route.target.flatten with
    | some sidx, some tidx =>
      match unionChecked fuel st.1 sidx tidx with
      | some (true, uf2) => (uf2, NetTree.connect st.2 sidx tidx height d)
      | some (false, uf2) => (uf2, st.2)
      | none => st
    | _, _ => st

/-- `NetTree::new` (components.rs): catalogue positions, allocate one node
per position, fragment the segments, and fold `buildStep` over the atomic
segments.  Returns the final union-find together with the nodes. -/
def NetTree.build (conn_pins : List Nat) (segments : List Route)
    (pin_position : Nat → Option Pair) : UnionFind × List NetNode :=
  let catalog := positionsCatalog conn_pins segments pin_position
  let nodes : List NetNode :=
    catalog.map (fun pr => ⟨pr.2, pr.1, none, none, none, none⟩)
  let num_nodes := nodes.length
  let key_positions := catalog.map Prod.fst
  let lookup : Pair → Option Nat := fun p => key_positions.findIdx? (fun q => q == p)
  let atomic := intoAtomicSegments segments key_positions
  atomic.foldl (NetTree.buildStep lookup (num_nodes + 1))
    (UnionFind.make num_nodes, nodes)

/-- The tree returned by `NetTree::new`. -/
def NetTree.new (conn_pins : List Nat) (segments : List Route)
    (pin_position : Nat → Option Pair) : NetTree :=
  ⟨(NetTree.build conn_pins segments pin_position).2⟩

/-- The condition asserted by `debug_assert!(union_find.done())` at the end
of `NetTree::new`. -/
def NetTree.buildDone (conn_pins : List Nat) (segments : List Route)
    (pin_position : Nat → Option Pair) : Bool :=
  (NetTree.build conn_pins segments pin_position).1.done

/-- `Net` of components.rs. -/
structure Net where
  id : Nat
  min_layer : Nat
  tree : NetTree
deriving DecidableEq, Repr

/-- One output wire-segment line `sRow sCol sLay eRow eCol eLay` (the net
name, identical on every line of one net, is omitted). -/
structure OutLine where
  srow : Nat
  scol : Nat
  slay : Nat
  trow : Nat
  tcol : Nat
  tlay : Nat
deriving DecidableEq, Repr

/-- The first pass of `impl Display for Net`: one span line per node of the
tree, unconditionally. -/
def Net.spanLines (net : Net) : List OutLine :=
  net.tree.nodes.map (fun nd =>
    ⟨nd.position.x, nd.position.y, nd.span.1, nd.position.x, nd.position.y, nd.span.2⟩)

/-- `Net::fmt_recursive`: walk the four directions in order, skip the one
pointing back along the arrival direction, emit the edge line, recurse into
the neighbour.  Rust recursion terminates because the pointers form a tree;
the embedding carries fuel. -/
def Net.fmtRecursive (fuel : Nat) (list : List NetNode) (node : NetNode)
    (direction : Towards) : List OutLine :=
  match fuel with
  | 0 => []
  | f+1 =>
    [Towards.Up, Towards.Down, Towards.Left, Towards.Right].foldl
      (fun acc dir =>
        if dir = direction.inv then acc
        else
          match node.index dir with
          | none => acc
          | some ptr =>
            match list[ptr.index]? with
            | none => acc
            | some nearby =>
              acc ++ (⟨node.position.x, node.position.y, ptr.height,
                       nearby.position.x, nearby.position.y, ptr.height⟩ :: [])
                ++ Net.fmtRecursive f list nearby dir) []

/-- The second pass of `impl Display for Net`: from `nodes[0]` (when any),
one `fmt_recursive` walk per direction in `[Up, Down, Left, Right]`. -/
def Net.walkLines (fuel : Nat) (net : Net) : List OutLine :=
  match net.tree.nodes.head? with
  | none => []
  | some root =>
    [Towards.Up, Towards.Down, Towards.Left, Towards.Right].foldl
      (fun acc dir => acc ++ Net.fmtRecursive fuel net.tree.nodes root dir) []

/-! ## Grid capacity loading (src/chip.rs) -/

/-- A routing layer of chip.rs: dimensions and a row-major capacity grid. -/
structure Layer where
  id : Nat
  direction : Direction
  dimx : Nat
  dimy : Nat
  capacity : List Nat
deriving DecidableEq, Repr

/-- `Layer::get_capacity`: row-major bounds-checked read. -/
def Layer.get_capacity (layer : Layer) (row col : Nat) : Option Nat :=
  layer.capacity[row * layer.dimy + col]?

/-- The `as usize` cast of an `isize` value: two's-complement wrap modulo
`2 ^ 64`. -/
def castIsizeToUsize (z : Int) : Nat := (z % ((2 : Int) ^ 64)).toNat

/-- One record of the `NumNonDefaultSupplyGGrid` section of
`Chip::read_file` (chip.rs): 1-based `(r, c, l)` and a signed delta; the
cell is updated by `*cell_capacity = (*cell_capacity as isize + val) as
usize` with no non-negativity check.  Rust panics (`expect`) on an
out-of-bounds layer or cell; the embedding leaves the layers unchanged. -/
def applySupplyDelta (layers : List Layer) (r c l : Nat) (val : Int) :
    List Layer :=
  match layers[l - 1]? with
  | none => layers
  | some layer =>
    let idx := (r - 1) * layer.dimy + (c - 1)
    match layer.capacity[idx]? with
    | none => layers
    | some cap =>
      layers.set (l - 1)
        {layer with capacity := layer.capacity.set idx (castIsizeToUsize ((cap : Int) + val))}

/-! ## Predicates used by the statements -/

/-- Slot `d` of node `i` of a node list (`none` when out of bounds). -/
def slotAt (nodes : List NetNode) (i : Nat) (d : Towards) : Option Pointer :=
  match nodes[i]? with
  | none => none
  | some nd => nd.index d

/-- `c` lies strictly between `a` and `b` on their common row or column. -/
def StrictlyBetween (c a b : Pair) : Prop :=
  (a.x = b.x ∧ c.x = a.x ∧ min a.y b.y < c.y ∧ c.y < max a.y b.y) ∨
  (a.y = b.y ∧ c.y = a.y ∧ min a.x b.x < c.x ∧ c.x < max a.x b.x)

/-- `b` is the immediate upward (column) successor of `a` among the
catalogued positions `P`: same row, larger column, nothing of `P` strictly
between. -/
def SuccCol (P : List Pair) (a b : Pair) : Prop :=
  a.x = b.x ∧ a.y < b.y ∧ ∀ C ∈ P, ¬(C.x = a.x ∧ a.y < C.y ∧ C.y < b.y)

/-- `b` is the immediate rightward (row) successor of `a` among the
catalogued positions `P`: same column, larger row, nothing of `P` strictly
between. -/
def SuccRow (P : List Pair) (a b : Pair) : Prop :=
  a.y = b.y ∧ a.x < b.x ∧ ∀ C ∈ P, ¬(C.y = a.y ∧ a.x < C.x ∧ C.x < b.x)

/-- Value of a little-endian decimal digit list. -/
def digitsVal (l : List Nat) : Nat := l.foldr (fun d acc => acc * 10 + d) 0

/-- The symmetry-and-geometry invariant of the node array maintained by the
`NetTree::new` fold: node positions are exactly the catalogued positions,
and every planar pointer is mirrored by its inverse pointer, with the two
node positions adjacent in the catalogue along the pointer axis. -/
def SymGeo (P : List Pair) (nodes : List NetNode) : Prop :=
  nodes.map NetNode.position = P ∧
  (∀ i j hgt, slotAt nodes i Towards.Up = some ⟨j, hgt⟩ →
    slotAt nodes j Towards.Down = some ⟨i, hgt⟩ ∧
    ∃ pi pj : Pair, Option.map NetNode.position nodes[i]? = some pi ∧
      Option.map NetNode.position nodes[j]? = some pj ∧ SuccCol P pi pj) ∧
  (∀ i j hgt, slotAt nodes i Towards.Down = some ⟨j, hgt⟩ →
    slotAt nodes j Towards.Up = some ⟨i, hgt⟩ ∧
    ∃ pi pj : Pair, Option.map NetNode.position nodes[i]? = some pi ∧
      Option.map NetNode.position nodes[j]? = some pj ∧ SuccCol P pj pi) ∧
  (∀ i j hgt, slotAt nodes i Towards.Right = some ⟨j, hgt⟩ →
    slotAt nodes j Towards.Left = some ⟨i, hgt⟩ ∧
    ∃ pi pj : Pair, Option.map NetNode.position nodes[i]? = some pi ∧
      Option.map NetNode.position nodes[j]? = some pj ∧ SuccRow P pi pj) ∧
  (∀ i j hgt, slotAt nodes i Towards.Left = some ⟨j, hgt⟩ →
    slotAt nodes j Towards.Right = some ⟨i, hgt⟩ ∧
    ∃ pi pj : Pair, Option.map NetNode.position nodes[i]? = some pi ∧
      Option.map NetNode.position nodes[j]? = some pj ∧ SuccRow P pj pi)

/-! ## Union-find lemmas -/

theorem findAux_succ (f : Nat) (nodes : List UnionFindNode) (i : Nat) :
    findAux (f+1) nodes i =
      match nodes[i]? with
      | none => none
      | some nd => if nd.head = i then some i else findAux f nodes nd.head := rfl

theorem findAux_mono {fuel fuel2 : Nat} {nodes : List UnionFindNode} {i r : Nat}
    (h : findAux fuel nodes i = some r) (hf : fuel ≤ fuel2) :
    findAux fuel2 nodes i = some r := by
  induction fuel generalizing i fuel2 with
  | zero => simp [findAux] at h
  | succ f ih =>
    obtain ⟨f2, rfl⟩ : ∃ f2, fuel2 = f2 + 1 := ⟨fuel2 - 1, by omega⟩
    cases hnd : nodes[i]? with
    | none => rw [findAux_succ, hnd] at h; exact absurd h (by simp)
    | some nd =>
      rw [findAux_succ, hnd] at h
      rw [findAux_succ, hnd]
      by_cases hh : nd.head = i
      · simpa [hh] using h
      · simp only [hh, if_false] at h ⊢
        exact ih h (by omega)

theorem findAux_det {f1 f2 : Nat} {nodes : List UnionFindNode} {i r1 r2 : Nat}
    (h1 : findAux f1 nodes i = some r1) (h2 : findAux f2 nodes i = some r2) :
    r1 = r2 := by
  rcases Nat.le_total f1 f2 with h | h
  · have h3 := findAux_mono h1 h
    rw [h3] at h2; exact Option.some.inj h2
  · have h3 := findAux_mono h2 h
    rw [h3] at h1; exact (Option.some.inj h1).symm

/-- The value returned by `find` is a root: its own head. -/
theorem findAux_root {fuel : Nat} {nodes : List UnionFindNode} {i r : Nat}
    (h : findAux fuel nodes i = some r) :
    ∃ nd, nodes[r]? = some nd ∧ nd.head = r := by
  induction fuel generalizing i with
  | zero => simp [findAux] at h
  | succ f ih =>
    cases hnd : nodes[i]? with
    | none => rw [findAux_succ, hnd] at h; exact absurd h (by simp)
    | some nd =>
      rw [findAux_succ, hnd] at h
      by_cases hh : nd.head = i
      · simp only [hh, if_pos rfl] at h
        obtain rfl : i = r := Option.some.inj h
        exact ⟨nd, hnd, hh⟩
      · simp only [hh, if_false] at h
        exact ih h

theorem findMutAux_succ (f : Nat) (nodes : List UnionFindNode) (i : Nat) :
    findMutAux (f+1) nodes i =
      match nodes[i]? with
      | none => none
      | some nd =>
        if nd.head = i then some (i, nodes)
        else
          match findMutAux f nodes nd.head with
          | none => none
          | some (ans, nodes1) =>
            match nodes1[i]? with
            | none => none
            | some nd1 => some (ans, nodes1.set i ⟨ans, nd1.height⟩) := rfl

theorem findMutAux_length {fuel : Nat} {nodes nodes2 : List UnionFindNode} {i r : Nat}
    (h : findMutAux fuel nodes i = some (r, nodes2)) :
    nodes2.length = nodes.length := by
  induction fuel generalizing i r nodes nodes2 with
  | zero => simp [findMutAux] at h
  | succ f ih =>
    cases hnd : nodes[i]? with
    | none => rw [findMutAux_succ, hnd] at h; exact absurd h (by simp)
    | some nd =>
      rw [findMutAux_succ, hnd] at h
      by_cases hh : nd.head = i
      · simp only [hh, if_pos rfl] at h
        obtain ⟨rfl, rfl⟩ : i = r ∧ nodes = nodes2 := by
          constructor <;> [exact congrArg Prod.fst (Option.some.inj h);
            exact congrArg Prod.snd (Option.some.inj h)]
        rfl
      · simp only [hh, if_false] at h
        cases hrec : findMutAux f nodes nd.head with
        | none => rw [hrec] at h; exact absurd h (by simp)
        | some p =>
          obtain ⟨ans, nodes1⟩ := p
          rw [hrec] at h
          dsimp only at h
          cases hnd1 : nodes1[i]? with
          | none => rw [hnd1] at h; exact absurd h (by simp)
          | some nd1 =>
            rw [hnd1] at h
            obtain ⟨rfl, rfl⟩ : ans = r ∧ nodes1.set i ⟨ans, nd1.height⟩ = nodes2 := by
              constructor <;> [exact congrArg Prod.fst (Option.some.inj h);
                exact congrArg Prod.snd (Option.some.inj h)]
            rw [List.length_set]
            exact ih hrec

theorem findMutAux_height {fuel : Nat} {nodes nodes2 : List UnionFindNode} {i r : Nat}
    (h : findMutAux fuel nodes i = some (r, nodes2)) :
    ∀ j : Nat, Option.map UnionFindNode.height nodes2[j]? =
      Option.map UnionFindNode.height nodes[j]? := by
  induction fuel generalizing i r nodes nodes2 with
  | zero => simp [findMutAux] at h
  | succ f ih =>
    intro j
    cases hnd : nodes[i]? with
    | none => rw [findMutAux_succ, hnd] at h; exact absurd h (by simp)
    | some nd =>
      rw [findMutAux_succ, hnd] at h
      by_cases hh : nd.head = i
      · simp only [hh, if_pos rfl] at h
        obtain ⟨rfl, rfl⟩ : i = r ∧ nodes = nodes2 := by
          constructor <;> [exact congrArg Prod.fst (Option.some.inj h);
            exact congrArg Prod.snd (Option.some.inj h)]
        rfl
      · simp only [hh, if_false] at h
        cases hrec : findMutAux f nodes nd.head with
        | none => rw [hrec] at h; exact absurd h (by simp)
        | some p =>
          obtain ⟨ans, nodes1⟩ := p
          rw [hrec] at h
          dsimp only at h
          cases hnd1 : nodes1[i]? with
          | none => rw [hnd1] at h; exact absurd h (by simp)
          | some nd1 =>
            rw [hnd1] at h
            obtain ⟨rfl, rfl⟩ : ans = r ∧ nodes1.set i ⟨ans, nd1.height⟩ = nodes2 := by
              constructor <;> [exact congrArg Prod.fst (Option.some.inj h);
                exact congrArg Prod.snd (Option.some.inj h)]
            by_cases hij : j = i
            · subst hij
              have hjlt : j < nodes1.length := (List.getElem?_eq_some.mp hnd1).choose
              rw [List.getElem?_set_eq_of_lt (⟨ans, nd1.height⟩ : UnionFindNode) hjlt]
              have h2 := ih hrec j
              rw [hnd1] at h2
              simpa using h2
            · rw [List.getElem?_set_ne (fun hcon => hij hcon.symm)]
              exact ih hrec j

theorem findMutAux_findAux {fuel : Nat} {nodes nodes2 : List UnionFindNode} {i r : Nat}
    (h : findMutAux fuel nodes i = some (r, nodes2)) :
    findAux fuel nodes i = some r := by
  induction fuel generalizing i r nodes nodes2 with
  | zero => simp [findMutAux] at h
  | succ f ih =>
    cases hnd : nodes[i]? with
    | none => rw [findMutAux_succ, hnd] at h; exact absurd h (by simp)
    | some nd =>
      rw [findMutAux_succ, hnd] at h
      rw [findAux_succ, hnd]
      by_cases hh : nd.head = i
      · simp only [hh, if_pos rfl] at h ⊢
        exact congrArg some (congrArg Prod.fst (Option.some.inj h)).symm ▸ rfl
      · simp only [hh, if_false] at h ⊢
        cases hrec : findMutAux f nodes nd.head with
        | none => rw [hrec] at h; exact absurd h (by simp)
        | some p =>
          obtain ⟨ans, nodes1⟩ := p
          rw [hrec] at h
          dsimp only at h
          cases hnd1 : nodes1[i]? with
          | none => rw [hnd1] at h; exact absurd h (by simp)
          | some nd1 =>
            rw [hnd1] at h
            have hans : ans = r := congrArg Prod.fst (Option.some.inj h)
            subst hans
            exact ih hrec

/-- Rewriting the head of a node to its own representative preserves every
representative (the elementary step of path compression). -/
theorem findAux_set_head {nodes : List UnionFindNode} {i r F hgt : Nat}
    (hroot : findAux F nodes i = some r) :
    ∀ G j s, findAux G nodes j = some s →
      findAux G (nodes.set i ⟨r, hgt⟩) j = some s := by
  intro G
  induction G with
  | zero => intro j s h; simp [findAux] at h
  | succ g ih =>
    intro j s h
    cases hndj : nodes[j]? with
    | none => rw [findAux_succ, hndj] at h; exact absurd h (by simp)
    | some ndj =>
      rw [findAux_succ, hndj] at h
      have hjlt : j < nodes.length := (List.getElem?_eq_some.mp hndj).choose
      by_cases hh : ndj.head = j
      · simp only [hh, if_pos rfl] at h
        obtain rfl : j = s := Option.some.inj h
        by_cases hij : j = i
        · subst hij
          obtain ⟨F1, rfl⟩ : ∃ F1, F = F1 + 1 := ⟨F - 1, by
            rcases F with _ | F1
            · simp [findAux] at hroot
            · omega⟩
          rw [findAux_succ, hndj] at hroot
          simp only [hh, if_pos rfl] at hroot
          obtain rfl : j = r := Option.some.inj hroot
          rw [findAux_succ, List.getElem?_set_eq_of_lt (⟨j, hgt⟩ : UnionFindNode) hjlt]
          simp
        · rw [findAux_succ, List.getElem?_set_ne (fun hc => hij hc.symm), hndj]
          simp [hh]
      · simp only [hh, if_false] at h
        by_cases hij : j = i
        · subst hij
          obtain ⟨ndr, hndr, hhr⟩ := findAux_root hroot
          have hrj : r ≠ j := by
            intro hcon
            subst hcon
            rw [hndj] at hndr
            obtain rfl : ndj = ndr := Option.some.inj hndr
            exact hh hhr
          have hs : findAux (g+1) nodes j = some s := by
            rw [findAux_succ, hndj]; simp [hh, h]
          obtain rfl : s = r := findAux_det hs hroot
          obtain ⟨g1, rfl⟩ : ∃ g1, g = g1 + 1 := ⟨g - 1, by
            rcases g with _ | g1
            · simp [findAux] at h
            · omega⟩
          rw [findAux_succ, List.getElem?_set_eq_of_lt (⟨s, hgt⟩ : UnionFindNode) hjlt]
          have hsj : ¬((⟨s, hgt⟩ : UnionFindNode).head = j) := hrj
          simp only [hsj, if_false]
          rw [findAux_succ, List.getElem?_set_ne (fun hc => hrj hc.symm), hndr]
          simp [hhr]
        · rw [findAux_succ, List.getElem?_set_ne (fun hc => hij hc.symm), hndj]
          simp only [hh, if_false]
          exact ih _ _ h

/-- Path compression (`find_mut`) preserves every representative. -/
theorem findMutAux_preserve {fuel : Nat} {nodes nodes2 : List UnionFindNode} {i r : Nat}
    (h : findMutAux fuel nodes i = some (r, nodes2)) :
    ∀ G j s, findAux G nodes j = some s → findAux G nodes2 j = some s := by
  induction fuel generalizing i r nodes nodes2 with
  | zero => simp [findMutAux] at h
  | succ f ih =>
    have hroot : findAux (f+1) nodes i = some r := findMutAux_findAux h
    cases hnd : nodes[i]? with
    | none => rw [findMutAux_succ, hnd] at h; exact absurd h (by simp)
    | some nd =>
      rw [findMutAux_succ, hnd] at h
      by_cases hh : nd.head = i
      · simp only [hh, if_pos rfl] at h
        obtain ⟨rfl, rfl⟩ : i = r ∧ nodes = nodes2 := by
          constructor <;> [exact congrArg Prod.fst (Option.some.inj h);
            exact congrArg Prod.snd (Option.some.inj h)]
        intro G j s hjs; exact hjs
      · simp only [hh, if_false] at h
        cases hrec : findMutAux f nodes nd.head with
        | none => rw [hrec] at h; exact absurd h (by simp)
        | some p =>
          obtain ⟨ans, nodes1⟩ := p
          rw [hrec] at h
          dsimp only at h
          cases hnd1 : nodes1[i]? with
          | none => rw [hnd1] at h; exact absurd h (by simp)
          | some nd1 =>
            rw [hnd1] at h
            obtain ⟨rfl, rfl⟩ : ans = r ∧ nodes1.set i ⟨ans, nd1.height⟩ = nodes2 := by
              constructor <;> [exact congrArg Prod.fst (Option.some.inj h);
                exact congrArg Prod.snd (Option.some.inj h)]
            intro G j s hjs
            have step1 := ih hrec G j s hjs
            have hroot1 : findAux (f+1) nodes1 i = some ans := ih hrec _ _ _ hroot
            exact findAux_set_head hroot1 G j s step1

/-- When plain `find` succeeds, `find_mut` succeeds with the same root. -/
theorem findAux_findMutAux {fuel : Nat} {nodes : List UnionFindNode} {i r : Nat}
    (h : findAux fuel nodes i = some r) :
    ∃ nodes2, findMutAux fuel nodes i = some (r, nodes2) := by
  induction fuel generalizing i with
  | zero => simp [findAux] at h
  | succ f ih =>
    cases hnd : nodes[i]? with
    | none => rw [findAux_succ, hnd] at h; exact absurd h (by simp)
    | some nd =>
      rw [findAux_succ, hnd] at h
      by_cases hh : nd.head = i
      · simp only [hh, if_pos rfl] at h
        obtain rfl : i = r := Option.some.inj h
        exact ⟨nodes, by rw [findMutAux_succ, hnd]; simp [hh]⟩
      · simp only [hh, if_false] at h
        obtain ⟨nodes1, hrec⟩ := ih h
        have hlen : nodes1.length = nodes.length := findMutAux_length hrec
        have hilt : i < nodes1.length := by
          rw [hlen]; exact (List.getElem?_eq_some.mp hnd).choose
        obtain ⟨nd1, hnd1⟩ : ∃ nd1, nodes1[i]? = some nd1 :=
          ⟨nodes1[i], List.getElem?_eq_getElem hilt⟩
        refine ⟨nodes1.set i ⟨r, nd1.height⟩, ?_⟩
        rw [findMutAux_succ, hnd]
        simp only [hh, if_false]
        rw [hrec]
        dsimp only
        rw [hnd1]

/-- Generic root-redirection: if `nodes3` agrees with `nodes` on every head
except that the root `loser` now points at the root `winner`, then every
representative equal to `loser` becomes `winner` and all others persist
(one extra unit of fuel pays for the extra hop). -/
theorem findAux_redirect {nodes nodes3 : List UnionFindNode} {loser winner : Nat}
    {ndl ndw : UnionFindNode}
    (hl : nodes[loser]? = some ndl) (hhl : ndl.head = loser)
    (hw : nodes[winner]? = some ndw) (hhw : ndw.head = winner)
    (hne : winner ≠ loser)
    (hheads : ∀ j : Nat, j ≠ loser →
      Option.map UnionFindNode.head nodes3[j]? = Option.map UnionFindNode.head nodes[j]?)
    (hloser : Option.map UnionFindNode.head nodes3[loser]? = some winner) :
    ∀ G j s, findAux G nodes j = some s →
      findAux (G+1) nodes3 j = some (if s = loser then winner else s) := by
  intro G
  induction G with
  | zero => intro j s h; simp [findAux] at h
  | succ g ih =>
    intro j s h
    cases hndj : nodes[j]? with
    | none => rw [findAux_succ, hndj] at h; exact absurd h (by simp)
    | some ndj =>
      rw [findAux_succ, hndj] at h
      by_cases hh : ndj.head = j
      · simp only [hh, if_pos rfl] at h
        obtain rfl : j = s := Option.some.inj h
        by_cases hjl : j = loser
        · subst hjl
          obtain ⟨nd3, hnd3, hnd3h⟩ : ∃ nd3, nodes3[j]? = some nd3 ∧ nd3.head = winner := by
            cases hc : nodes3[j]? with
            | none => rw [hc] at hloser; exact absurd hloser (by simp)
            | some v => rw [hc] at hloser; exact ⟨v, rfl, Option.some.inj hloser⟩
          rw [findAux_succ, hnd3]
          have hwj : ¬(nd3.head = j) := by rw [hnd3h]; exact hne
          simp only [hwj, if_false, if_pos rfl]
          rw [hnd3h]
          obtain ⟨nd3w, hnd3w, hnd3wh⟩ :
              ∃ nd3w, nodes3[winner]? = some nd3w ∧ nd3w.head = winner := by
            have hc := hheads winner hne
            rw [hw] at hc
            cases hc2 : nodes3[winner]? with
            | none => rw [hc2] at hc; exact absurd hc (by simp)
            | some v =>
              rw [hc2] at hc
              exact ⟨v, rfl, by simpa [hhw] using hc⟩
          rw [findAux_succ, hnd3w]
          simp [hnd3wh]
        · obtain ⟨nd3, hnd3, hnd3h⟩ : ∃ nd3, nodes3[j]? = some nd3 ∧ nd3.head = j := by
            have hc := hheads j hjl
            rw [hndj] at hc
            cases hc2 : nodes3[j]? with
            | none => rw [hc2] at hc; exact absurd hc (by simp)
            | some v =>
              rw [hc2] at hc
              exact ⟨v, rfl, by simpa [hh] using hc⟩
          rw [findAux_succ, hnd3]
          simp [hnd3h, hjl]
      · simp only [hh, if_false] at h
        have hjl : j ≠ loser := by
          intro hc; subst hc
          rw [hl] at hndj
          obtain rfl : ndl = ndj := Option.some.inj hndj
          exact hh hhl
        obtain ⟨nd3, hnd3, hnd3h⟩ : ∃ nd3, nodes3[j]? = some nd3 ∧ nd3.head = ndj.head := by
          have hc := hheads j hjl
          rw [hndj] at hc
          cases hc2 : nodes3[j]? with
          | none => rw [hc2] at hc; exact absurd hc (by simp)
          | some v => rw [hc2] at hc; exact ⟨v, rfl, by simpa using hc⟩
        rw [findAux_succ, hnd3]
        have hne2 : ¬(nd3.head = j) := by rw [hnd3h]; exact hh
        simp only [hne2, if_false]
        rw [hnd3h]
        exact ih _ _ h

/-- Shape of `join` on two distinct roots: by rank, the losing root points at
the winning root afterwards; equal heights increment the winning height. -/
theorem joinNodes_spec {nodes : List UnionFindNode} {x y : Nat} {ndx ndy : UnionFindNode}
    (hx : nodes[x]? = some ndx) (hy : nodes[y]? = some ndy) (hxy : x ≠ y) :
    ∃ nodes3, joinNodes nodes x y = some nodes3 ∧
      nodes3.length = nodes.length ∧
      (∀ j : Nat, j ≠ (if ndy.height < ndx.height then y else x) →
        Option.map UnionFindNode.head nodes3[j]? =
          Option.map UnionFindNode.head nodes[j]?) ∧
      Option.map UnionFindNode.head nodes3[(if ndy.height < ndx.height then y else x)]? =
        some (if ndy.height < ndx.height then x else y) ∧
      Option.map UnionFindNode.height
          nodes3[(if ndy.height < ndx.height then x else y)]? =
        some (if ndx.height = ndy.height then ndy.height + 1
          else if ndy.height < ndx.height then ndx.height else ndy.height) := by
  have hxlt : x < nodes.length := (List.getElem?_eq_some.mp hx).choose
  have hylt : y < nodes.length := (List.getElem?_eq_some.mp hy).choose
  by_cases hlt : ndy.height < ndx.height
  · refine ⟨nodes.set y ⟨x, ndy.height⟩, ?_, by simp, ?_, ?_, ?_⟩
    · simp only [joinNodes, hx, hy, Option.bind_eq_bind, Option.some_bind]
      rw [if_pos hlt]
    · intro j hj
      rw [if_pos hlt] at hj
      rw [List.getElem?_set_ne (fun hc => hj hc.symm)]
    · rw [if_pos hlt, if_pos hlt, List.getElem?_set_eq_of_lt _ hylt]
      rfl
    · have hne : ndx.height ≠ ndy.height := by omega
      rw [if_pos hlt, if_neg hne, if_pos hlt,
        List.getElem?_set_ne (fun hc => hxy hc.symm), hx]
      rfl
  · by_cases heq : ndx.height = ndy.height
    · have hstep : ((nodes.set x ⟨y, ndx.height⟩)[y]?) = some ndy :=
        (List.getElem?_set_ne (fun hc => hxy hc)).trans hy
      refine ⟨(nodes.set x ⟨y, ndx.height⟩).set y ⟨ndy.head, ndy.height + 1⟩,
        ?_, by simp, ?_, ?_, ?_⟩
      · simp only [joinNodes, hx, hy, Option.bind_eq_bind, Option.some_bind]
        rw [if_neg hlt, if_pos heq, hstep]
        simp
      · intro j hj
        rw [if_neg hlt] at hj
        by_cases hjy : j = y
        · subst hjy
          have hylt2 : j < (nodes.set x ⟨j, ndx.height⟩).length := by simpa using hylt
          rw [List.getElem?_set_eq_of_lt (⟨ndy.head, ndy.height + 1⟩ : UnionFindNode) hylt2,
            hy]
          simp
        · rw [List.getElem?_set_ne (fun hc => hjy hc.symm),
            List.getElem?_set_ne (fun hc => hj hc.symm)]
      · rw [if_neg hlt, if_neg hlt,
          List.getElem?_set_ne (fun hc => hxy hc.symm),
          List.getElem?_set_eq_of_lt _ hxlt]
        rfl
      · have hylt2 : y < (nodes.set x ⟨y, ndx.height⟩).length := by simpa using hylt
        rw [if_neg hlt, if_pos heq, List.getElem?_set_eq_of_lt _ hylt2]
        rfl
    · refine ⟨nodes.set x ⟨y, ndx.height⟩, ?_, by simp, ?_, ?_, ?_⟩
      · simp only [joinNodes, hx, hy, Option.bind_eq_bind, Option.some_bind]
        rw [if_neg hlt, if_neg heq]
      · intro j hj
        rw [if_neg hlt] at hj
        rw [List.getElem?_set_ne (fun hc => hj hc.symm)]
      · rw [if_neg hlt, if_neg hlt, List.getElem?_set_eq_of_lt _ hxlt]
        rfl
      · rw [if_neg hlt, if_neg heq, if_neg hlt,
          List.getElem?_set_ne (fun hc => hxy hc), hy]
        rfl

theorem unionChecked_eq {F : Nat} {uf : UnionFind} {a b ra rb : Nat}
    {nodes1 nodes2 : List UnionFindNode}
    (ha : findMutAux F uf.nodes a = some (ra, nodes1))
    (hb : findMutAux F nodes1 b = some (rb, nodes2)) :
    unionChecked F uf a b =
      (if ra = rb then some (false, ⟨nodes2⟩)
       else (joinNodes nodes2 ra rb).bind fun nodes3 => some (true, ⟨nodes3⟩)) := by
  simp only [unionChecked, ha, hb, Option.bind_eq_bind, Option.some_bind]

/-- Claim C7: for in-bounds arguments (expressed by termination of the two
path-compressing finds), `union_checked(a, b)` reports a merge exactly when
the representatives of `a` and `b` differed immediately before the call;
after a successful union, a repeated union of the same pair reports no merge;
and joining two roots of equal rank increments the surviving root's rank. -/
theorem claim_C7 {F Fb : Nat} {uf : UnionFind} {a b ra rb sb : Nat}
    {nodes1 nodes2 : List UnionFindNode}
    (ha : findMutAux F uf.nodes a = some (ra, nodes1))
    (hb : findMutAux F nodes1 b = some (rb, nodes2))
    (hb0 : findAux Fb uf.nodes b = some sb) :
    (findAux F uf.nodes a = some ra ∧ sb = rb) ∧
    ∃ res uf2, unionChecked F uf a b = some (res, uf2) ∧
      (res = true ↔ ra ≠ sb) ∧
      (res = true → ∃ uf3, unionChecked (F+1) uf2 a b = some (false, uf3)) ∧
      (∀ nda0 ndb0, ra ≠ rb → uf.nodes[ra]? = some nda0 → uf.nodes[rb]? = some ndb0 →
        nda0.height = ndb0.height →
        Option.map UnionFindNode.height uf2.nodes[rb]? = some (ndb0.height + 1)) := by
  have hA : findAux F uf.nodes a = some ra := findMutAux_findAux ha
  have hA1 : findAux F nodes1 a = some ra := findMutAux_preserve ha F a ra hA
  have hB1 : findAux F nodes1 b = some rb := findMutAux_findAux hb
  have hB1b : findAux Fb nodes1 b = some sb := findMutAux_preserve ha Fb b sb hb0
  have hsbrb : sb = rb := findAux_det hB1b hB1
  subst hsbrb
  have hA2 : findAux F nodes2 a = some ra := findMutAux_preserve hb F a ra hA1
  have hB2 : findAux F nodes2 b = some sb := findMutAux_preserve hb F b sb hB1
  refine ⟨⟨hA, rfl⟩, ?_⟩
  by_cases hrr : ra = sb
  · refine ⟨false, ⟨nodes2⟩, ?_, by simp [hrr], by simp, ?_⟩
    · rw [unionChecked_eq ha hb, if_pos hrr]
    · intro nda0 ndb0 hne _ _ _
      exact absurd hrr hne
  · obtain ⟨nda2, hnda2, hha2⟩ := findAux_root hA2
    obtain ⟨ndb2, hndb2, hhb2⟩ := findAux_root hB2
    obtain ⟨nodes3, hjoin, hlen3, hheads, hloser, hheight⟩ :=
      joinNodes_spec hnda2 hndb2 hrr
    refine ⟨true, ⟨nodes3⟩, ?_, by simp [hrr], ?_, ?_⟩
    · rw [unionChecked_eq ha hb, if_neg hrr, hjoin]
      rfl
    · intro _
      by_cases hcmp : ndb2.height < nda2.height
      · simp only [if_pos hcmp] at hheads hloser
        have hred := findAux_redirect hndb2 hhb2 hnda2 hha2 hrr hheads hloser
        have hA3 : findAux (F+1) nodes3 a = some ra := by
          have h3 := hred F a ra hA2
          rwa [if_neg hrr] at h3
        have hB3 : findAux (F+1) nodes3 b = some ra := by
          have h3 := hred F b sb hB2
          rwa [if_pos rfl] at h3
        obtain ⟨nodes4, hmut4⟩ := findAux_findMutAux hA3
        have hB4 : findAux (F+1) nodes4 b = some ra :=
          findMutAux_preserve hmut4 (F+1) b ra hB3
        obtain ⟨nodes5, hmut5⟩ := findAux_findMutAux hB4
        refine ⟨⟨nodes5⟩, ?_⟩
        rw [unionChecked_eq hmut4 hmut5, if_pos rfl]
      · simp only [if_neg hcmp] at hheads hloser
        have hred := findAux_redirect hnda2 hha2 hndb2 hhb2
          (fun hc => hrr hc.symm) hheads hloser
        have hA3 : findAux (F+1) nodes3 a = some sb := by
          have h3 := hred F a ra hA2
          rwa [if_pos rfl] at h3
        have hB3 : findAux (F+1) nodes3 b = some sb := by
          have h3 := hred F b sb hB2
          rwa [if_neg (fun hc => hrr hc.symm)] at h3
        obtain ⟨nodes4, hmut4⟩ := findAux_findMutAux hA3
        have hB4 : findAux (F+1) nodes4 b = some sb :=
          findMutAux_preserve hmut4 (F+1) b sb hB3
        obtain ⟨nodes5, hmut5⟩ := findAux_findMutAux hB4
        refine ⟨⟨nodes5⟩, ?_⟩
        rw [unionChecked_eq hmut4 hmut5, if_pos rfl]
    · intro nda0 ndb0 _ hnda0 hndb0 heq0
      have hh1 : Option.map UnionFindNode.height nodes2[ra]? =
          Option.map UnionFindNode.height uf.nodes[ra]? := by
        rw [findMutAux_height hb ra, findMutAux_height ha ra]
      have hh2 : Option.map UnionFindNode.height nodes2[sb]? =
          Option.map UnionFindNode.height uf.nodes[sb]? := by
        rw [findMutAux_height hb sb, findMutAux_height ha sb]
      rw [hnda2, hnda0] at hh1
      rw [hndb2, hndb0] at hh2
      have hha : nda2.height = nda0.height := by simpa using hh1
      have hhb : ndb2.height = ndb0.height := by simpa using hh2
      have heq2 : nda2.height = ndb2.height := by omega
      have hcmp : ¬(ndb2.height < nda2.height) := by omega
      rw [if_neg hcmp, if_pos heq2] at hheight
      rw [hheight, hhb]

theorem claim_C7_witness :
    (unionChecked 1 (UnionFind.make 2) 0 1).map Prod.fst = some true := by
  obtain ⟨-, res, uf2, hu, hiff, -, -⟩ :=
    claim_C7
      (show findMutAux 1 (UnionFind.make 2).nodes 0 =
        some (0, (UnionFind.make 2).nodes) by decide)
      (show findMutAux 1 (UnionFind.make 2).nodes 1 =
        some (1, (UnionFind.make 2).nodes) by decide)
      (show findAux 1 (UnionFind.make 2).nodes 1 = some 1 by decide)
  rw [hu, hiff.mpr (by decide)]
  rfl

/-! ## Sorted-bucket lemmas -/

theorem mem_zip_tail {l : List Nat} {a b : Nat} (h : (a, b) ∈ l.zip l.tail) :
    ∃ i, i + 1 < l.length ∧ l[i]? = some a ∧ l[i+1]? = some b := by
  obtain ⟨i, hi, hget⟩ := List.mem_iff_getElem.mp h
  have hi2 : i + 1 < l.length := by
    have hlen := List.length_zip l l.tail
    rw [List.length_tail] at hlen
    omega
  refine ⟨i, hi2, ?_⟩
  have hz : (l.zip l.tail)[i]? = some (a, b) := by
    rw [List.getElem?_eq_getElem hi, hget]
  obtain ⟨h1, h2⟩ := List.getElem?_zip_eq_some.mp hz
  rw [List.getElem?_tail] at h2
  exact ⟨h1, h2⟩

theorem sorted_adjacent_not_between {l : List Nat} (hs : l.Sorted (· ≤ ·))
    {a b : Nat} (hab : (a, b) ∈ l.zip l.tail) :
    a ≤ b ∧ ∀ r ∈ l, ¬(a < r ∧ r < b) := by
  obtain ⟨i, hi, ha, hb⟩ := mem_zip_tail hab
  obtain ⟨hia0, hia⟩ := List.getElem?_eq_some.mp ha
  obtain ⟨hib0, hib⟩ := List.getElem?_eq_some.mp hb
  constructor
  · rw [← hia, ← hib]
    exact List.Sorted.rel_get_of_lt hs (a := ⟨i, hia0⟩) (b := ⟨i+1, hib0⟩) (Nat.lt_succ_self i)
  · rintro r hr ⟨h1, h2⟩
    obtain ⟨j, hj, rfl⟩ := List.mem_iff_getElem.mp hr
    rcases le_or_lt j i with hji | hij
    · have hle : l[j] ≤ l[i] :=
        (Nat.eq_or_lt_of_le hji).elim (fun h => by subst h; exact le_refl _)
          (fun h => List.Sorted.rel_get_of_lt hs (a := ⟨j, hj⟩) (b := ⟨i, hia0⟩) h)
      rw [hia] at hle; omega
    · have hij2 : i + 1 ≤ j := hij
      have hle : l[i+1] ≤ l[j] :=
        (Nat.eq_or_lt_of_le hij2).elim (fun h => by subst h; exact le_refl _)
          (fun h => List.Sorted.rel_get_of_lt hs (a := ⟨i+1, hib0⟩) (b := ⟨j, hj⟩) h)
      rw [hib] at hle; omega

theorem sorted_adjacent_lt {l : List Nat} (hs : l.Sorted (· ≤ ·)) (hnd : l.Nodup)
    {a b : Nat} (hab : (a, b) ∈ l.zip l.tail) : a < b := by
  obtain ⟨i, hi, ha, hb⟩ := mem_zip_tail hab
  obtain ⟨hia0, hia⟩ := List.getElem?_eq_some.mp ha
  obtain ⟨hib0, hib⟩ := List.getElem?_eq_some.mp hb
  have hle : a ≤ b := (sorted_adjacent_not_between hs hab).1
  rcases Nat.eq_or_lt_of_le hle with rfl | hlt
  · exfalso
    have heq2 : l[i] = l[i+1] := by rw [hia, hib]
    have heq : i = i + 1 := (List.Nodup.getElem_inj_iff hnd).mp heq2
    omega
  · exact hlt

theorem posByRow_sorted (P : List Pair) (r : Nat) :
    (posByRow P r).Sorted (· ≤ ·) :=
  List.sorted_insertionSort _ _

theorem posByCol_sorted (P : List Pair) (c : Nat) :
    (posByCol P c).Sorted (· ≤ ·) :=
  List.sorted_insertionSort _ _

theorem mem_posByRow {P : List Pair} {r v : Nat} :
    v ∈ posByRow P r ↔ (⟨r, v⟩ : Pair) ∈ P := by
  rw [posByRow, List.mem_insertionSort, List.mem_map]
  constructor
  · rintro ⟨p, hp, rfl⟩
    obtain ⟨hp0, hpx⟩ := List.mem_filter.mp hp
    have : p = ⟨r, p.y⟩ := by
      cases p; simp at hpx ⊢; omega
    rwa [← this]
  · intro hv
    refine ⟨⟨r, v⟩, List.mem_filter.mpr ⟨hv, by simp⟩, rfl⟩

theorem mem_posByCol {P : List Pair} {c v : Nat} :
    v ∈ posByCol P c ↔ (⟨v, c⟩ : Pair) ∈ P := by
  rw [posByCol, List.mem_insertionSort, List.mem_map]
  constructor
  · rintro ⟨p, hp, rfl⟩
    obtain ⟨hp0, hpy⟩ := List.mem_filter.mp hp
    have : p = ⟨p.x, c⟩ := by
      cases p; simp at hpy ⊢; omega
    rwa [← this]
  · intro hv
    refine ⟨⟨v, c⟩, List.mem_filter.mpr ⟨hv, by simp⟩, rfl⟩

theorem posByRow_nodup {P : List Pair} (h : P.Nodup) (r : Nat) :
    (posByRow P r).Nodup := by
  have hperm := List.perm_insertionSort (· ≤ ·) ((P.filter (fun p => p.x = r)).map Pair.y)
  rw [posByRow]
  refine hperm.nodup_iff.mpr ?_
  refine List.Nodup.map_on ?_ (List.Nodup.filter _ h)
  intro p hp q hq hpq
  obtain ⟨_, hpx⟩ := List.mem_filter.mp hp
  obtain ⟨_, hqx⟩ := List.mem_filter.mp hq
  cases p; cases q
  simp_all

theorem posByCol_nodup {P : List Pair} (h : P.Nodup) (c : Nat) :
    (posByCol P c).Nodup := by
  have hperm := List.perm_insertionSort (· ≤ ·) ((P.filter (fun p => p.y = c)).map Pair.x)
  rw [posByCol]
  refine hperm.nodup_iff.mpr ?_
  refine List.Nodup.map_on ?_ (List.Nodup.filter _ h)
  intro p hp q hq hpq
  obtain ⟨_, hpy⟩ := List.mem_filter.mp hp
  obtain ⟨_, hqy⟩ := List.mem_filter.mp hq
  cases p; cases q
  simp_all

/-! ## Classification lemmas for `Route::towards` -/

theorem towards_eq_up {r : Route} (h : r.towards = some Towards.Up) :
    r.target.row = r.source.row ∧ r.source.col < r.target.col ∧
      r.target.lay = r.source.lay := by
  unfold Route.towards Route.vector at h
  dsimp only at h
  split_ifs at h <;> simp_all <;> omega

theorem towards_eq_right {r : Route} (h : r.towards = some Towards.Right) :
    r.target.col = r.source.col ∧ r.source.row < r.target.row ∧
      r.target.lay = r.source.lay := by
  unfold Route.towards Route.vector at h
  dsimp only at h
  split_ifs at h <;> simp_all <;> omega

theorem towards_eq_down {r : Route} (h : r.towards = some Towards.Down) :
    r.target.row = r.source.row ∧ r.target.col < r.source.col ∧
      r.target.lay = r.source.lay := by
  unfold Route.towards Route.vector at h
  dsimp only at h
  split_ifs at h <;> simp_all <;> omega

theorem towards_eq_left {r : Route} (h : r.towards = some Towards.Left) :
    r.target.col = r.source.col ∧ r.target.row < r.source.row ∧
      r.target.lay = r.source.lay := by
  unfold Route.towards Route.vector at h
  dsimp only at h
  split_ifs at h <;> simp_all <;> omega

theorem towards_of_up {r : Route} (hrow : r.target.row = r.source.row)
    (hcol : r.source.col < r.target.col) (hlay : r.target.lay = r.source.lay) :
    r.towards = some Towards.Up := by
  unfold Route.towards Route.vector
  dsimp only
  rw [if_neg (by omega), if_neg (by omega), if_pos (by omega), if_pos (by omega)]

theorem towards_of_right {r : Route} (hcol : r.target.col = r.source.col)
    (hrow : r.source.row < r.target.row) (hlay : r.target.lay = r.source.lay) :
    r.towards = some Towards.Right := by
  unfold Route.towards Route.vector
  dsimp only
  rw [if_neg (by omega), if_pos (by omega), if_pos (by omega)]

/-! ## Fragmentation lemmas -/

theorem mem_break_horizontal {route : Route} {pos : List Nat} {e : Route}
    (he : e ∈ breakSingleSegment route pos Direction.Horizontal) :
    ∃ source target : Point,
      ((source = route.source ∧ target = route.target) ∨
       (source = route.target ∧ target = route.source)) ∧
      ∃ a b, (a, b) ∈ (pos.filter (fun v => source.row ≤ v ∧ v ≤ target.row)).zip
          (pos.filter (fun v => source.row ≤ v ∧ v ≤ target.row)).tail ∧
        e = ⟨⟨a, source.col, source.lay⟩, ⟨b, target.col, target.lay⟩⟩ := by
  simp only [breakSingleSegment] at he
  by_cases hsw : route.target.row < route.source.row
  · rw [if_pos hsw] at he
    obtain ⟨⟨a, b⟩, hab, rfl⟩ := List.mem_map.mp he
    exact ⟨route.target, route.source, Or.inr ⟨rfl, rfl⟩, a, b, hab, rfl⟩
  · rw [if_neg hsw] at he
    obtain ⟨⟨a, b⟩, hab, rfl⟩ := List.mem_map.mp he
    exact ⟨route.source, route.target, Or.inl ⟨rfl, rfl⟩, a, b, hab, rfl⟩

theorem mem_break_vertical {route : Route} {pos : List Nat} {e : Route}
    (he : e ∈ breakSingleSegment route pos Direction.Vertical) :
    ∃ source target : Point,
      ((source = route.source ∧ target = route.target) ∨
       (source = route.target ∧ target = route.source)) ∧
      ∃ a b, (a, b) ∈ (pos.filter (fun v => source.col ≤ v ∧ v ≤ target.col)).zip
          (pos.filter (fun v => source.col ≤ v ∧ v ≤ target.col)).tail ∧
        e = ⟨⟨source.row, a, source.lay⟩, ⟨target.row, b, target.lay⟩⟩ := by
  simp only [breakSingleSegment] at he
  by_cases hsw : route.target.col < route.source.col
  · rw [if_pos hsw] at he
    obtain ⟨⟨a, b⟩, hab, rfl⟩ := List.mem_map.mp he
    exact ⟨route.target, route.source, Or.inr ⟨rfl, rfl⟩, a, b, hab, rfl⟩
  · rw [if_neg hsw] at he
    obtain ⟨⟨a, b⟩, hab, rfl⟩ := List.mem_map.mp he
    exact ⟨route.source, route.target, Or.inl ⟨rfl, rfl⟩, a, b, hab, rfl⟩

theorem mem_intoAtomic {segments : List Route} {P : List Pair} {e : Route}
    (he : e ∈ intoAtomicSegments segments P) :
    ∃ route, route ∈ segments ∧
      (((route.towards = some Towards.Left ∨ route.towards = some Towards.Right) ∧
        e ∈ breakSingleSegment route (posByCol P route.source.col) Direction.Horizontal) ∨
       ((route.towards = some Towards.Up ∨ route.towards = some Towards.Down) ∧
        e ∈ breakSingleSegment route (posByRow P route.source.row) Direction.Vertical)) := by
  obtain ⟨route, hroute, hin⟩ := List.mem_flatMap.mp he
  refine ⟨route, (List.mem_filter.mp hroute).1, ?_⟩
  cases htow : route.towards with
  | none => rw [htow] at hin; exact absurd hin (by simp)
  | some t =>
    cases t <;> rw [htow] at hin
    · exact Or.inr ⟨Or.inl rfl, hin⟩
    · exact Or.inr ⟨Or.inr rfl, hin⟩
    · exact Or.inl ⟨Or.inl rfl, hin⟩
    · exact Or.inl ⟨Or.inr rfl, hin⟩
    · exact absurd hin (by simp)
    · exact absurd hin (by simp)

theorem mem_of_mem_zip_tail {l : List Nat} {a b : Nat}
    (h : (a, b) ∈ l.zip l.tail) : a ∈ l ∧ b ∈ l := by
  obtain ⟨i, hi, ha, hb⟩ := mem_zip_tail h
  exact ⟨List.getElem?_mem ha, List.getElem?_mem hb⟩

theorem atomic_shape {segments : List Route} {P : List Pair} (hnd : P.Nodup)
    {e : Route} (he : e ∈ intoAtomicSegments segments P) :
    (e.towards = some Towards.Up ∧ e.source.lay = e.target.lay ∧
      e.source.flatten ∈ P ∧ e.target.flatten ∈ P ∧
      SuccCol P e.source.flatten e.target.flatten) ∨
    (e.towards = some Towards.Right ∧ e.source.lay = e.target.lay ∧
      e.source.flatten ∈ P ∧ e.target.flatten ∈ P ∧
      SuccRow P e.source.flatten e.target.flatten) := by
  obtain ⟨route, hroute, hcase⟩ := mem_intoAtomic he
  rcases hcase with ⟨htow, hbrk⟩ | ⟨htow, hbrk⟩
  · right
    obtain ⟨src, tgt, hswap, a, b, hab, rfl⟩ := mem_break_horizontal hbrk
    have hcl : src.col = tgt.col ∧ src.lay = tgt.lay ∧ src.col = route.source.col := by
      rcases htow with h | h
      · obtain ⟨hc, hr, hl⟩ := towards_eq_left h
        rcases hswap with ⟨rfl, rfl⟩ | ⟨rfl, rfl⟩ <;> exact ⟨by omega, by omega, by omega⟩
      · obtain ⟨hc, hr, hl⟩ := towards_eq_right h
        rcases hswap with ⟨rfl, rfl⟩ | ⟨rfl, rfl⟩ <;> exact ⟨by omega, by omega, by omega⟩
    obtain ⟨hcc, hll, hsc⟩ := hcl
    have hsorted : ((posByCol P route.source.col).filter
        (fun v => src.row ≤ v ∧ v ≤ tgt.row)).Sorted (· ≤ ·) :=
      List.Pairwise.filter _ (posByCol_sorted P route.source.col)
    have hnd2 : ((posByCol P route.source.col).filter
        (fun v => src.row ≤ v ∧ v ≤ tgt.row)).Nodup :=
      List.Nodup.filter _ (posByCol_nodup hnd route.source.col)
    have hmem := mem_of_mem_zip_tail hab
    have hamem : a ∈ posByCol P route.source.col := (List.mem_filter.mp hmem.1).1
    have hbmem : b ∈ posByCol P route.source.col := (List.mem_filter.mp hmem.2).1
    have habnd : src.row ≤ a ∧ a ≤ tgt.row := by
      have := (List.mem_filter.mp hmem.1).2; simp at this; exact this
    have hbbnd : src.row ≤ b ∧ b ≤ tgt.row := by
      have := (List.mem_filter.mp hmem.2).2; simp at this; exact this
    have hab_lt : a < b := sorted_adjacent_lt hsorted hnd2 hab
    have hnomid := (sorted_adjacent_not_between hsorted hab).2
    refine ⟨?_, by simpa using hll, ?_, ?_, ?_⟩
    · exact towards_of_right (by simpa using hcc.symm) (by simpa using hab_lt)
        (by simpa using hll.symm)
    · have := mem_posByCol.mp hamem
      simpa [Point.flatten, hsc] using this
    · have := mem_posByCol.mp hbmem
      have hcc2 : tgt.col = route.source.col := by omega
      simpa [Point.flatten, hcc2] using this
    · refine ⟨by simpa using hcc, by simpa using hab_lt, ?_⟩
      rintro C hC ⟨hCy, hCa, hCb⟩
      simp only [Point.flatten] at hCy hCa hCb
      have hCmem : C.x ∈ posByCol P route.source.col := by
        rw [mem_posByCol]
        have : C = ⟨C.x, route.source.col⟩ := by cases C; simp_all
        rwa [← this]
      have hCfilt : C.x ∈ (posByCol P route.source.col).filter
          (fun v => src.row ≤ v ∧ v ≤ tgt.row) := by
        refine List.mem_filter.mpr ⟨hCmem, ?_⟩
        simp only [decide_eq_true_eq]
        omega
      exact hnomid C.x hCfilt ⟨hCa, hCb⟩
  · left
    obtain ⟨src, tgt, hswap, a, b, hab, rfl⟩ := mem_break_vertical hbrk
    have hcl : src.row = tgt.row ∧ src.lay = tgt.lay ∧ src.row = route.source.row := by
      rcases htow with h | h
      · obtain ⟨hc, hr, hl⟩ := towards_eq_up h
        rcases hswap with ⟨rfl, rfl⟩ | ⟨rfl, rfl⟩ <;> exact ⟨by omega, by omega, by omega⟩
      · obtain ⟨hc, hr, hl⟩ := towards_eq_down h
        rcases hswap with ⟨rfl, rfl⟩ | ⟨rfl, rfl⟩ <;> exact ⟨by omega, by omega, by omega⟩
    obtain ⟨hcc, hll, hsc⟩ := hcl
    have hsorted : ((posByRow P route.source.row).filter
        (fun v => src.col ≤ v ∧ v ≤ tgt.col)).Sorted (· ≤ ·) :=
      List.Pairwise.filter _ (posByRow_sorted P route.source.row)
    have hnd2 : ((posByRow P route.source.row).filter
        (fun v => src.col ≤ v ∧ v ≤ tgt.col)).Nodup :=
      List.Nodup.filter _ (posByRow_nodup hnd route.source.row)
    have hmem := mem_of_mem_zip_tail hab
    have hamem : a ∈ posByRow P route.source.row := (List.mem_filter.mp hmem.1).1
    have hbmem : b ∈ posByRow P route.source.row := (List.mem_filter.mp hmem.2).1
    have habnd : src.col ≤ a ∧ a ≤ tgt.col := by
      have := (List.mem_filter.mp hmem.1).2; simp at this; exact this
    have hbbnd : src.col ≤ b ∧ b ≤ tgt.col := by
      have := (List.mem_filter.mp hmem.2).2; simp at this; exact this
    have hab_lt : a < b := sorted_adjacent_lt hsorted hnd2 hab
    have hnomid := (sorted_adjacent_not_between hsorted hab).2
    refine ⟨?_, by simpa using hll, ?_, ?_, ?_⟩
    · exact towards_of_up (by simpa using hcc.symm) (by simpa using hab_lt)
        (by simpa using hll.symm)
    · have := mem_posByRow.mp hamem
      simpa [Point.flatten, hsc] using this
    · have := mem_posByRow.mp hbmem
      have hcc2 : tgt.row = route.source.row := by omega
      simpa [Point.flatten, hcc2] using this
    · refine ⟨by simpa using hcc, by simpa using hab_lt, ?_⟩
      rintro C hC ⟨hCx, hCa, hCb⟩
      simp only [Point.flatten] at hCx hCa hCb
      have hCmem : C.y ∈ posByRow P route.source.row := by
        rw [mem_posByRow]
        have : C = ⟨route.source.row, C.y⟩ := by cases C; simp_all
        rwa [← this]
      have hCfilt : C.y ∈ (posByRow P route.source.row).filter
          (fun v => src.col ≤ v ∧ v ≤ tgt.col) := by
        refine List.mem_filter.mpr ⟨hCmem, ?_⟩
        simp only [decide_eq_true_eq]
        omega
      exact hnomid C.y hCfilt ⟨hCa, hCb⟩

theorem window_left {l : List Nat} (hs : l.Sorted (· ≤ ·)) {v lo : Nat}
    (hv : v ∈ l) (hlo : lo ∈ l) (hlt : lo < v) :
    ∃ a, (a, v) ∈ l.zip l.tail := by
  obtain ⟨j, hj, rfl⟩ := List.mem_iff_getElem.mp hv
  obtain ⟨k, hk, rfl⟩ := List.mem_iff_getElem.mp hlo
  have hj0 : j ≠ 0 := by
    intro h0
    subst h0
    have : l[0] ≤ l[k] :=
      (Nat.eq_or_lt_of_le (Nat.zero_le k)).elim
        (fun h => by subst h; exact le_refl _)
        (fun h => List.Sorted.rel_get_of_lt hs (a := ⟨0, hj⟩) (b := ⟨k, hk⟩) h)
    omega
  have hj1 : j - 1 < l.length := by omega
  refine ⟨l[j-1], ?_⟩
  have hz : (l.zip l.tail)[j-1]? = some (l[j-1], l[j]) := by
    rw [List.getElem?_zip_eq_some]
    refine ⟨List.getElem?_eq_getElem (by omega), ?_⟩
    rw [List.getElem?_tail]
    have : j - 1 + 1 = j := by omega
    rw [this]
    exact List.getElem?_eq_getElem hj
  exact List.getElem?_mem hz

theorem window_right {l : List Nat} (hs : l.Sorted (· ≤ ·)) {v hi : Nat}
    (hv : v ∈ l) (hhi : hi ∈ l) (hlt : v < hi) :
    ∃ b, (v, b) ∈ l.zip l.tail := by
  obtain ⟨j, hj, rfl⟩ := List.mem_iff_getElem.mp hv
  obtain ⟨k, hk, rfl⟩ := List.mem_iff_getElem.mp hhi
  have hjlast : j + 1 < l.length := by
    rcases Nat.lt_or_ge (j+1) l.length with h | h
    · exact h
    · exfalso
      have hkj : k ≤ j := by omega
      have : l[k] ≤ l[j] :=
        (Nat.eq_or_lt_of_le hkj).elim
          (fun h2 => by subst h2; exact le_refl _)
          (fun h2 => List.Sorted.rel_get_of_lt hs (a := ⟨k, hk⟩) (b := ⟨j, hj⟩) h2)
      omega
  refine ⟨l[j+1], ?_⟩
  have hz : (l.zip l.tail)[j]? = some (l[j], l[j+1]) := by
    rw [List.getElem?_zip_eq_some]
    refine ⟨List.getElem?_eq_getElem hj, ?_⟩
    rw [List.getElem?_tail]
    exact List.getElem?_eq_getElem hjlast
  exact List.getElem?_mem hz

theorem coverage_core {bucket : List Nat} (hsorted : bucket.Sorted (· ≤ ·))
    {lo hi v : Nat} (hlo : lo ∈ bucket) (hhi : hi ∈ bucket) (hlohi : lo < hi)
    (hv : v ∈ bucket) (hvlo : lo ≤ v) (hvhi : v ≤ hi) :
    ∃ a b, ((a, b) ∈ (bucket.filter (fun u => lo ≤ u ∧ u ≤ hi)).zip
        (bucket.filter (fun u => lo ≤ u ∧ u ≤ hi)).tail) ∧ (v = a ∨ v = b) := by
  have hs2 : (bucket.filter (fun u => lo ≤ u ∧ u ≤ hi)).Sorted (· ≤ ·) :=
    List.Pairwise.filter _ hsorted
  have hlo2 : lo ∈ bucket.filter (fun u => lo ≤ u ∧ u ≤ hi) :=
    List.mem_filter.mpr ⟨hlo, by simp; omega⟩
  have hhi2 : hi ∈ bucket.filter (fun u => lo ≤ u ∧ u ≤ hi) :=
    List.mem_filter.mpr ⟨hhi, by simp; omega⟩
  have hv2 : v ∈ bucket.filter (fun u => lo ≤ u ∧ u ≤ hi) :=
    List.mem_filter.mpr ⟨hv, by simp; omega⟩
  rcases Nat.eq_or_lt_of_le hvlo with rfl | hlt
  · obtain ⟨b, hb⟩ := window_right hs2 hv2 hhi2 hlohi
    exact ⟨lo, b, hb, Or.inl rfl⟩
  · obtain ⟨a, ha⟩ := window_left hs2 hv2 hlo2 hlt
    exact ⟨a, v, ha, Or.inr rfl⟩

theorem break_mem_intoAtomic {segments : List Route} {P : List Pair}
    {route : Route} (hroute : route ∈ segments) {e : Route} :
    ((route.towards = some Towards.Left ∨ route.towards = some Towards.Right) →
      e ∈ breakSingleSegment route (posByCol P route.source.col) Direction.Horizontal →
      e ∈ intoAtomicSegments segments P) ∧
    ((route.towards = some Towards.Up ∨ route.towards = some Towards.Down) →
      e ∈ breakSingleSegment route (posByRow P route.source.row) Direction.Vertical →
      e ∈ intoAtomicSegments segments P) := by
  constructor
  · intro htow hbrk
    refine List.mem_flatMap.mpr ⟨route, List.mem_filter.mpr ⟨hroute, ?_⟩, ?_⟩
    · rcases htow with h | h <;> simp [h]
    · rcases htow with h | h <;> rw [h] <;> exact hbrk
  · intro htow hbrk
    refine List.mem_flatMap.mpr ⟨route, List.mem_filter.mpr ⟨hroute, ?_⟩, ?_⟩
    · rcases htow with h | h <;> simp [h]
    · rcases htow with h | h <;> rw [h] <;> exact hbrk

theorem break_horiz_noswap {route : Route} {pos : List Nat} {a b : Nat}
    (hsw : ¬ route.target.row < route.source.row)
    (hab : (a, b) ∈ (pos.filter (fun v => route.source.row ≤ v ∧ v ≤ route.target.row)).zip
        (pos.filter (fun v => route.source.row ≤ v ∧ v ≤ route.target.row)).tail) :
    (⟨⟨a, route.source.col, route.source.lay⟩, ⟨b, route.target.col, route.target.lay⟩⟩ : Route)
      ∈ breakSingleSegment route pos Direction.Horizontal := by
  simp only [breakSingleSegment]
  rw [if_neg hsw]
  exact List.mem_map.mpr ⟨(a, b), hab, rfl⟩

theorem break_horiz_swap {route : Route} {pos : List Nat} {a b : Nat}
    (hsw : route.target.row < route.source.row)
    (hab : (a, b) ∈ (pos.filter (fun v => route.target.row ≤ v ∧ v ≤ route.source.row)).zip
        (pos.filter (fun v => route.target.row ≤ v ∧ v ≤ route.source.row)).tail) :
    (⟨⟨a, route.target.col, route.target.lay⟩, ⟨b, route.source.col, route.source.lay⟩⟩ : Route)
      ∈ breakSingleSegment route pos Direction.Horizontal := by
  simp only [breakSingleSegment]
  rw [if_pos hsw]
  exact List.mem_map.mpr ⟨(a, b), hab, rfl⟩

theorem break_vert_noswap {route : Route} {pos : List Nat} {a b : Nat}
    (hsw : ¬ route.target.col < route.source.col)
    (hab : (a, b) ∈ (pos.filter (fun v => route.source.col ≤ v ∧ v ≤ route.target.col)).zip
        (pos.filter (fun v => route.source.col ≤ v ∧ v ≤ route.target.col)).tail) :
    (⟨⟨route.source.row, a, route.source.lay⟩, ⟨route.target.row, b, route.target.lay⟩⟩ : Route)
      ∈ breakSingleSegment route pos Direction.Vertical := by
  simp only [breakSingleSegment]
  rw [if_neg hsw]
  exact List.mem_map.mpr ⟨(a, b), hab, rfl⟩

theorem break_vert_swap {route : Route} {pos : List Nat} {a b : Nat}
    (hsw : route.target.col < route.source.col)
    (hab : (a, b) ∈ (pos.filter (fun v => route.target.col ≤ v ∧ v ≤ route.source.col)).zip
        (pos.filter (fun v => route.target.col ≤ v ∧ v ≤ route.source.col)).tail) :
    (⟨⟨route.target.row, a, route.target.lay⟩, ⟨route.source.row, b, route.source.lay⟩⟩ : Route)
      ∈ breakSingleSegment route pos Direction.Vertical := by
  simp only [breakSingleSegment]
  rw [if_pos hsw]
  exact List.mem_map.mpr ⟨(a, b), hab, rfl⟩

theorem Pair.ext2 {a b : Pair} (hx : a.x = b.x) (hy : a.y = b.y) : a = b := by
  cases a; cases b; simp_all

/-- Claim C1: every atomic fragment produced by `into_atomic_segments` has
no catalogued position strictly between its endpoints on their common row
or column (minimality), and every planar segment is split at every
catalogued position lying on its line between its endpoints, inclusive:
each such position is an endpoint of some emitted fragment (coverage). -/
theorem claim_C1 {segments : List Route} {P : List Pair} (hnd : P.Nodup) :
    (∀ e ∈ intoAtomicSegments segments P, ∀ C ∈ P,
      ¬ StrictlyBetween C e.source.flatten e.target.flatten) ∧
    (∀ route ∈ segments, ∀ t, route.towards = some t →
      t ≠ Towards.Top → t ≠ Towards.Bottom →
      route.source.flatten ∈ P → route.target.flatten ∈ P →
      ∀ C ∈ P, (StrictlyBetween C route.source.flatten route.target.flatten ∨
          C = route.source.flatten ∨ C = route.target.flatten) →
        ∃ e ∈ intoAtomicSegments segments P,
          C = e.source.flatten ∨ C = e.target.flatten) := by
  constructor
  · intro e he C hC hbet
    rcases atomic_shape hnd he with ⟨_, _, _, _, hx, hy, hmid⟩ | ⟨_, _, _, _, hy, hx, hmid⟩
    · rcases hbet with ⟨h1, h2, h3, h4⟩ | ⟨h1, h2, h3, h4⟩
      · exact hmid C hC ⟨h2, by omega, by omega⟩
      · omega
    · rcases hbet with ⟨h1, h2, h3, h4⟩ | ⟨h1, h2, h3, h4⟩
      · omega
      · exact hmid C hC ⟨h2, by omega, by omega⟩
  · intro route hroute t htow htop hbot hsrc htgt C hC hcase
    cases t with
    | Top => exact absurd rfl htop
    | Bottom => exact absurd rfl hbot
    | Right =>
      obtain ⟨hcol, hrow, hlay⟩ := towards_eq_right htow
      have hlo : route.source.row ∈ posByCol P route.source.col :=
        mem_posByCol.mpr hsrc
      have hhi : route.target.row ∈ posByCol P route.source.col := by
        rw [mem_posByCol]
        have heq : (⟨route.target.row, route.source.col⟩ : Pair) = route.target.flatten :=
          Pair.ext2 rfl (by simp [Point.flatten, hcol])
        rw [heq]; exact htgt
      have hCfacts : C.y = route.source.col ∧ route.source.row ≤ C.x ∧
          C.x ≤ route.target.row := by
        rcases hcase with hbet | rfl | rfl
        · rcases hbet with ⟨h1, h2, h3, h4⟩ | ⟨h1, h2, h3, h4⟩
          · simp only [Point.flatten] at h1; omega
          · simp only [Point.flatten] at h1 h2 h3 h4
            refine ⟨by omega, by omega, by omega⟩
        · exact ⟨rfl, le_refl _, hrow.le⟩
        · exact ⟨hcol, hrow.le, le_refl _⟩
      have hv : C.x ∈ posByCol P route.source.col := by
        rw [mem_posByCol]
        have heq : (⟨C.x, route.source.col⟩ : Pair) = C :=
          Pair.ext2 rfl hCfacts.1.symm
        rw [heq]; exact hC
      obtain ⟨a, b, hab, hvab⟩ := coverage_core (posByCol_sorted P route.source.col)
        hlo hhi hrow hv hCfacts.2.1 hCfacts.2.2
      have hsw : ¬ route.target.row < route.source.row := by omega
      refine ⟨⟨⟨a, route.source.col, route.source.lay⟩,
              ⟨b, route.target.col, route.target.lay⟩⟩, ?_, ?_⟩
      · exact (break_mem_intoAtomic hroute).1 (Or.inr htow) (break_horiz_noswap hsw hab)
      · rcases hvab with ha | hb
        · exact Or.inl (Pair.ext2 ha hCfacts.1)
        · exact Or.inr (Pair.ext2 hb (hCfacts.1.trans hcol.symm))
    | Left =>
      obtain ⟨hcol, hrow, hlay⟩ := towards_eq_left htow
      have hhi : route.source.row ∈ posByCol P route.source.col :=
        mem_posByCol.mpr hsrc
      have hlo : route.target.row ∈ posByCol P route.source.col := by
        rw [mem_posByCol]
        have heq : (⟨route.target.row, route.source.col⟩ : Pair) = route.target.flatten :=
          Pair.ext2 rfl (by simp [Point.flatten, hcol])
        rw [heq]; exact htgt
      have hCfacts : C.y = route.source.col ∧ route.target.row ≤ C.x ∧
          C.x ≤ route.source.row := by
        rcases hcase with hbet | rfl | rfl
        · rcases hbet with ⟨h1, h2, h3, h4⟩ | ⟨h1, h2, h3, h4⟩
          · simp only [Point.flatten] at h1; omega
          · simp only [Point.flatten] at h1 h2 h3 h4
            refine ⟨by omega, by omega, by omega⟩
        · exact ⟨rfl, hrow.le, le_refl _⟩
        · exact ⟨hcol, le_refl _, hrow.le⟩
      have hv : C.x ∈ posByCol P route.source.col := by
        rw [mem_posByCol]
        have heq : (⟨C.x, route.source.col⟩ : Pair) = C :=
          Pair.ext2 rfl hCfacts.1.symm
        rw [heq]; exact hC
      obtain ⟨a, b, hab, hvab⟩ := coverage_core (posByCol_sorted P route.source.col)
        hlo hhi hrow hv hCfacts.2.1 hCfacts.2.2
      refine ⟨⟨⟨a, route.target.col, route.target.lay⟩,
              ⟨b, route.source.col, route.source.lay⟩⟩, ?_, ?_⟩
      · exact (break_mem_intoAtomic hroute).1 (Or.inl htow) (break_horiz_swap hrow hab)
      · rcases hvab with ha | hb
        · exact Or.inl (Pair.ext2 ha (hCfacts.1.trans hcol.symm))
        · exact Or.inr (Pair.ext2 hb hCfacts.1)
    | Up =>
      obtain ⟨hrow2, hcol2, hlay⟩ := towards_eq_up htow
      have hlo : route.source.col ∈ posByRow P route.source.row :=
        mem_posByRow.mpr hsrc
      have hhi : route.target.col ∈ posByRow P route.source.row := by
        rw [mem_posByRow]
        have heq : (⟨route.source.row, route.target.col⟩ : Pair) = route.target.flatten :=
          Pair.ext2 (by simp [Point.flatten, hrow2]) rfl
        rw [heq]; exact htgt
      have hCfacts : C.x = route.source.row ∧ route.source.col ≤ C.y ∧
          C.y ≤ route.target.col := by
        rcases hcase with hbet | rfl | rfl
        · rcases hbet with ⟨h1, h2, h3, h4⟩ | ⟨h1, h2, h3, h4⟩
          · simp only [Point.flatten] at h1 h2 h3 h4
            refine ⟨by omega, by omega, by omega⟩
          · simp only [Point.flatten] at h1; omega
        · exact ⟨rfl, le_refl _, hcol2.le⟩
        · exact ⟨hrow2, hcol2.le, le_refl _⟩
      have hv : C.y ∈ posByRow P route.source.row := by
        rw [mem_posByRow]
        have heq : (⟨route.source.row, C.y⟩ : Pair) = C :=
          Pair.ext2 hCfacts.1.symm rfl
        rw [heq]; exact hC
      obtain ⟨a, b, hab, hvab⟩ := coverage_core (posByRow_sorted P route.source.row)
        hlo hhi hcol2 hv hCfacts.2.1 hCfacts.2.2
      have hsw : ¬ route.target.col < route.source.col := by omega
      refine ⟨⟨⟨route.source.row, a, route.source.lay⟩,
              ⟨route.target.row, b, route.target.lay⟩⟩, ?_, ?_⟩
      · exact (break_mem_intoAtomic hroute).2 (Or.inl htow) (break_vert_noswap hsw hab)
      · rcases hvab with ha | hb
        · exact Or.inl (Pair.ext2 hCfacts.1 ha)
        · exact Or.inr (Pair.ext2 (hCfacts.1.trans hrow2.symm) hb)
    | Down =>
      obtain ⟨hrow2, hcol2, hlay⟩ := towards_eq_down htow
      have hhi : route.source.col ∈ posByRow P route.source.row :=
        mem_posByRow.mpr hsrc
      have hlo : route.target.col ∈ posByRow P route.source.row := by
        rw [mem_posByRow]
        have heq : (⟨route.source.row, route.target.col⟩ : Pair) = route.target.flatten :=
          Pair.ext2 (by simp [Point.flatten, hrow2]) rfl
        rw [heq]; exact htgt
      have hCfacts : C.x = route.source.row ∧ route.target.col ≤ C.y ∧
          C.y ≤ route.source.col := by
        rcases hcase with hbet | rfl | rfl
        · rcases hbet with ⟨h1, h2, h3, h4⟩ | ⟨h1, h2, h3, h4⟩
          · simp only [Point.flatten] at h1 h2 h3 h4
            refine ⟨by omega, by omega, by omega⟩
          · simp only [Point.flatten] at h1; omega
        · exact ⟨rfl, hcol2.le, le_refl _⟩
        · exact ⟨hrow2, le_refl _, hcol2.le⟩
      have hv : C.y ∈ posByRow P route.source.row := by
        rw [mem_posByRow]
        have heq : (⟨route.source.row, C.y⟩ : Pair) = C :=
          Pair.ext2 hCfacts.1.symm rfl
        rw [heq]; exact hC
      obtain ⟨a, b, hab, hvab⟩ := coverage_core (posByRow_sorted P route.source.row)
        hlo hhi hcol2 hv hCfacts.2.1 hCfacts.2.2
      refine ⟨⟨⟨route.target.row, a, route.target.lay⟩,
              ⟨route.source.row, b, route.source.lay⟩⟩, ?_, ?_⟩
      · exact (break_mem_intoAtomic hroute).2 (Or.inr htow) (break_vert_swap hcol2 hab)
      · rcases hvab with ha | hb
        · exact Or.inl (Pair.ext2 (hCfacts.1.trans hrow2.symm) ha)
        · exact Or.inr (Pair.ext2 hCfacts.1 hb)

theorem claim_C1_witness :
    ¬ StrictlyBetween ⟨1, 3⟩
      (Route.source ⟨⟨1, 1, 1⟩, ⟨1, 2, 1⟩⟩).flatten
      (Route.target ⟨⟨1, 1, 1⟩, ⟨1, 2, 1⟩⟩).flatten :=
  (claim_C1 (P := [⟨1, 1⟩, ⟨1, 3⟩, ⟨2, 2⟩, ⟨1, 2⟩]) (by decide)).1
    ⟨⟨1, 1, 1⟩, ⟨1, 2, 1⟩⟩
    (show (⟨⟨1, 1, 1⟩, ⟨1, 2, 1⟩⟩ : Route) ∈ intoAtomicSegments
        [⟨⟨1, 1, 1⟩, ⟨1, 3, 1⟩⟩, ⟨⟨1, 2, 1⟩, ⟨2, 2, 1⟩⟩]
        [⟨1, 1⟩, ⟨1, 3⟩, ⟨2, 2⟩, ⟨1, 2⟩] by decide)
    ⟨1, 3⟩ (by decide)

/-- Claim C2 (counterexample): on the disconnected example net — pins at
(1,1) and (5,5), single raw route (1,1)-(1,2) on layer 1 — `NetTree::new`
does not fail: it returns a three-node forest, even though the union-find
is not done.  No `DisconnectedNet` error exists in the code. -/
theorem claim_C2_counterexample :
    NetTree.buildDone [0, 1] [⟨⟨1, 1, 1⟩, ⟨1, 2, 1⟩⟩]
        (fun p => if p = 0 then some ⟨1, 1⟩ else some ⟨5, 5⟩) = false ∧
    (NetTree.new [0, 1] [⟨⟨1, 1, 1⟩, ⟨1, 2, 1⟩⟩]
        (fun p => if p = 0 then some ⟨1, 1⟩ else some ⟨5, 5⟩)).nodes.length = 3 :=
  ⟨rfl, rfl⟩

/-- Claim C2 (amended): when the atomic segments do not connect the nodes,
the only record of the failure is the condition of
`debug_assert!(union_find.done())` being false; `NetTree::new` is
infallible and returns the disconnected forest.  On the example net the
assertion condition is false and the returned forest has the three nodes
(1,1) id 0, (1,2) virtual, (5,5) id 1, with the single installed edge
(1,1)-(1,2). -/
theorem claim_C2 :
    NetTree.buildDone [0, 1] [⟨⟨1, 1, 1⟩, ⟨1, 2, 1⟩⟩]
        (fun p => if p = 0 then some ⟨1, 1⟩ else some ⟨5, 5⟩) = false ∧
    NetTree.new [0, 1] [⟨⟨1, 1, 1⟩, ⟨1, 2, 1⟩⟩]
        (fun p => if p = 0 then some ⟨1, 1⟩ else some ⟨5, 5⟩) =
      ⟨[⟨some 0, ⟨1, 1⟩, some ⟨1, 1⟩, none, none, none⟩,
        ⟨none, ⟨1, 2⟩, none, some ⟨0, 1⟩, none, none⟩,
        ⟨some 1, ⟨5, 5⟩, none, none, none, none⟩]⟩ :=
  ⟨rfl, rfl⟩

/-- Claim C4: the tree walk of `impl Display for Net` runs an outer loop
over all four directions at the root, each pass skipping only the pointer
back along that direction; on a two-node net the unique tree edge line is
therefore emitted three times, not once. -/
theorem claim_C4 :
    Net.walkLines 5 ⟨0, 0, NetTree.new [0, 1] [⟨⟨1, 1, 1⟩, ⟨1, 2, 1⟩⟩]
        (fun p => if p = 0 then some ⟨1, 1⟩ else some ⟨1, 2⟩)⟩ =
      [⟨1, 1, 1, 1, 2, 1⟩, ⟨1, 1, 1, 1, 2, 1⟩, ⟨1, 1, 1, 1, 2, 1⟩] :=
  rfl

/-- Claim C5 (counterexample): for the vertically-stacked net — pins at
(2,2) on layers 1 and 3, raw routes (2,2,1)-(2,2,2) and (2,2,2)-(2,2,3) —
the tree has a single node, but `span()` is `(usize::MAX, usize::MIN)`,
not the `(1, 3)` the claim states: Top/Bottom routes are discarded and
contribute no pointer heights. -/
theorem claim_C5_counterexample :
    (NetTree.new [0, 1] [⟨⟨2, 2, 1⟩, ⟨2, 2, 2⟩⟩, ⟨⟨2, 2, 2⟩, ⟨2, 2, 3⟩⟩]
        (fun _ => some ⟨2, 2⟩)).nodes.map NetNode.span ≠ [(1, 3)] := by
  decide

/-- Claim C5 (amended): the vertically-stacked example net yields a
one-node tree at (2,2) whose four planar slots are all `None`, so `span()`
returns the untouched fold initialiser `(usize::MAX, usize::MIN)`. -/
theorem claim_C5 :
    (NetTree.new [0, 1] [⟨⟨2, 2, 1⟩, ⟨2, 2, 2⟩⟩, ⟨⟨2, 2, 2⟩, ⟨2, 2, 3⟩⟩]
        (fun _ => some ⟨2, 2⟩)).nodes.map
      (fun nd => (nd.position, nd.span)) = [(⟨2, 2⟩, (USIZE_MAX, 0))] :=
  rfl

/-- Claim C6: the non-default-supply update of `Chip::read_file` adds the
signed delta in place (the −3 example of the spec yields capacity 2), but
performs no non-negativity check: a delta of −7 against capacity 5 is
stored as the wrapped value `2 ^ 64 − 2` instead of being rejected with a
`Corrupt` error (no such error exists in the code). -/
theorem claim_C6 :
    (applySupplyDelta [⟨0, Direction.Horizontal, 2, 2, [5, 5, 5, 5]⟩] 1 1 1 (-3)).map
        Layer.capacity = [[2, 5, 5, 5]] ∧
    (applySupplyDelta [⟨0, Direction.Horizontal, 2, 2, [5, 5, 5, 5]⟩] 1 1 1 (-7)).map
        Layer.capacity = [[2 ^ 64 - 2, 5, 5, 5]] := by
  constructor <;> decide

/-- Claim C9 (counterexample): `from_str` never compares the prefix; for
the Layer type (prefix "M") the name "X5" (bytes 88, 53) decodes
successfully to id 4 instead of failing with `MalformedName`. -/
theorem claim_C9_counterexample :
    factoryFromStr layerPfx [Char.ofNat 88, Char.ofNat 53] = some 4 := by
  decide

/-- Claim C9 (amended): `from_str` drops prefix-length bytes without
checking them and fails exactly when the remainder does not parse as a
`usize` (empty, non-numeric, or overflowing); a suffix of zero wraps to
`usize::MAX` in a release build instead of erroring.  Hence "X5" decodes
to 4, "M0" decodes to `usize::MAX`, and "Ma" and "M" fail. -/
theorem claim_C9 :
    factoryFromStr layerPfx [Char.ofNat 88, Char.ofNat 53] = some 4 ∧
    factoryFromStr layerPfx [Char.ofNat 77, Char.ofNat 48] = some (2 ^ 64 - 1) ∧
    factoryFromStr layerPfx [Char.ofNat 77, Char.ofNat 97] = none ∧
    factoryFromStr layerPfx [Char.ofNat 77] = none ∧
    (∀ name : List Char,
      (factoryFromStr layerPfx name).isSome ↔ (parseUsize (name.drop 1)).isSome) := by
  refine ⟨by decide, by decide, by decide, by decide, ?_⟩
  intro name
  simp [factoryFromStr, layerPfx]

/-- Claim C10: a `NetNode` whose four planar slots are all `None` — the
single node of a vertically-stacked net, or any isolated node — has
`span() = (usize::MAX, usize::MIN)`, the untouched fold initialiser; and
the emitter writes one span line for every node of the tree
unconditionally, so such nodes get a span line with exactly these values. -/
theorem claim_C10 :
    (∀ nd : NetNode, nd.up = none → nd.down = none → nd.left = none →
      nd.right = none → nd.span = (USIZE_MAX, 0)) ∧
    (∀ net : Net, (Net.spanLines net).length = net.tree.nodes.length ∧
      ∀ i : Nat, i < net.tree.nodes.length →
        ∃ nd, net.tree.nodes[i]? = some nd ∧
          (Net.spanLines net)[i]? =
            some ⟨nd.position.x, nd.position.y, nd.span.1,
                  nd.position.x, nd.position.y, nd.span.2⟩) := by
  constructor
  · intro nd h1 h2 h3 h4
    simp [NetNode.span, NetNode.neightbors, h1, h2, h3, h4]
  · intro net
    refine ⟨by simp [Net.spanLines], ?_⟩
    intro i hi
    refine ⟨net.tree.nodes[i], List.getElem?_eq_getElem hi, ?_⟩
    rw [Net.spanLines, List.getElem?_map, List.getElem?_eq_getElem hi]
    rfl

theorem claim_C10_witness :
    NetNode.span ⟨some 1, ⟨2, 2⟩, none, none, none, none⟩ = (USIZE_MAX, 0) :=
  claim_C10.1 ⟨some 1, ⟨2, 2⟩, none, none, none, none⟩ rfl rfl rfl rfl

/-! ## Decimal codec lemmas -/

theorem natDigitsRev_succ (f n : Nat) :
    natDigitsRev (f+1) n = if n = 0 then [] else n % 10 :: natDigitsRev f (n / 10) := rfl

theorem natDigitsRev_lt10 {f n : Nat} : ∀ d ∈ natDigitsRev f n, d < 10 := by
  induction f generalizing n with
  | zero => intro d hd; simp [natDigitsRev] at hd
  | succ f ih =>
    intro d hd
    rw [natDigitsRev_succ] at hd
    by_cases hn : n = 0
    · rw [if_pos hn] at hd; simp at hd
    · rw [if_neg hn] at hd
      rcases List.mem_cons.mp hd with rfl | hd2
      · exact Nat.mod_lt _ (by norm_num)
      · exact ih _ hd2

theorem digitsVal_natDigitsRev {f n : Nat} (h : n ≤ f) :
    digitsVal (natDigitsRev f n) = n := by
  induction f generalizing n with
  | zero =>
    obtain rfl : n = 0 := by omega
    rfl
  | succ f ih =>
    rw [natDigitsRev_succ]
    by_cases hn : n = 0
    · rw [if_pos hn, hn]; rfl
    · rw [if_neg hn]
      have hdiv : n / 10 ≤ f := by
        have := Nat.div_lt_self (Nat.pos_of_ne_zero hn) (by norm_num : 1 < 10)
        omega
      have hval : digitsVal (n % 10 :: natDigitsRev f (n / 10)) =
          digitsVal (natDigitsRev f (n / 10)) * 10 + n % 10 := rfl
      rw [hval, ih hdiv]
      omega

theorem charDigit_digitChar : ∀ d, d < 10 → charDigit (digitChar d) = some d := by
  decide

theorem digitChar_ne_plus : ∀ d, d < 10 → digitChar d ≠ Char.ofNat 43 := by
  decide

theorem parse_foldl_digits (dl : List Nat) (hdl : ∀ d ∈ dl, d < 10) (a0 : Nat) :
    (dl.map digitChar).foldl
      (fun acc c => acc.bind fun a => (charDigit c).map fun d => a * 10 + d) (some a0)
      = some (dl.foldl (fun a d => a * 10 + d) a0) := by
  induction dl generalizing a0 with
  | nil => rfl
  | cons d dl ih =>
    simp only [List.map_cons, List.foldl_cons]
    have hstep : (some a0).bind
        (fun a => (charDigit (digitChar d)).map fun d2 => a * 10 + d2) =
        some (a0 * 10 + d) := by
      rw [Option.some_bind, charDigit_digitChar d (hdl d (by simp))]
      rfl
    rw [hstep]
    exact ih (fun x hx => hdl x (by simp [hx])) _

theorem foldl_reverse_digitsVal (l : List Nat) :
    l.reverse.foldl (fun a d => a * 10 + d) 0 = digitsVal l := by
  rw [List.foldl_reverse]
  rfl

theorem natChars_ne_nil {n : Nat} (h1 : 1 ≤ n) : natChars n ≠ [] := by
  rw [natChars, if_neg (by omega)]
  obtain ⟨f, rfl⟩ : ∃ f, n = f + 1 := ⟨n - 1, by omega⟩
  rw [natDigitsRev_succ, if_neg (by omega)]
  simp

theorem parseUsizeCore_natChars {n : Nat} (h1 : 1 ≤ n) :
    parseUsizeCore (natChars n) = if n < 2 ^ 64 then some n else none := by
  have hform : natChars n = ((natDigitsRev n n).reverse).map digitChar := by
    rw [natChars, if_neg (by omega)]
  rw [parseUsizeCore]
  have hne : (natChars n).isEmpty = false := by
    cases hc : natChars n with
    | nil => exact absurd hc (natChars_ne_nil h1)
    | cons c rest => rfl
  rw [if_neg (by simp [hne])]
  rw [hform, parse_foldl_digits _ (fun d hd => natDigitsRev_lt10 d (List.mem_reverse.mp hd)) 0]
  rw [foldl_reverse_digitsVal, digitsVal_natDigitsRev (le_refl n)]
  rw [Option.some_bind]

theorem parseUsize_natChars {n : Nat} (h1 : 1 ≤ n) :
    parseUsize (natChars n) = if n < 2 ^ 64 then some n else none := by
  have hcore := parseUsizeCore_natChars h1
  cases hnc : natChars n with
  | nil => exact absurd hnc (natChars_ne_nil h1)
  | cons c rest =>
    have hplus : ¬ c = Char.ofNat 43 := by
      have hcm : c ∈ natChars n := by rw [hnc]; simp
      rw [natChars, if_neg (by omega)] at hcm
      obtain ⟨d, hd, rfl⟩ := List.mem_map.mp hcm
      exact digitChar_ne_plus d (natDigitsRev_lt10 d (List.mem_reverse.mp hd))
    rw [parseUsize, if_neg hplus, ← hnc, hcore]

/-- Claim C8 (counterexample): the name formed by the Layer prefix and the
decimal numeral of `2 ^ 64` is well-formed by the claim (prefix plus the
digits of a positive integer, no leading zeros), but decoding fails: the
numeral overflows `usize`, so no id exists whose encoding returns this
name.  The round trip therefore fails for this well-formed name. -/
theorem claim_C8_counterexample :
    factoryFromStr layerPfx (layerPfx ++ natChars (2 ^ 64)) = none := by
  rw [factoryFromStr, List.drop_left]
  rw [parseUsize_natChars (by norm_num)]
  rw [if_neg (by omega)]
  rfl

/-- Claim C8 (amended): for every prefix and every id with `id + 1` below
`2 ^ 64` (the claim's "below usize::MAX"), decoding the encoded name gives
back the id; and for every well-formed name — prefix followed by the
numeral of a positive integer — whose numeral value additionally fits in
`usize`, encoding the decoded id gives back the name.  (The fits-in-usize
bound is what the overflow counterexample forces.) -/
theorem claim_C8 :
    (∀ pfx : List Char, ∀ id : Nat, id + 1 < 2 ^ 64 →
      factoryFromStr pfx (factoryFromNumeric pfx id) = some id) ∧
    (∀ pfx name : List Char,
      (∃ n : Nat, 1 ≤ n ∧ n < 2 ^ 64 ∧ name = pfx ++ natChars n) →
      ∃ id : Nat, factoryFromStr pfx name = some id ∧
        factoryFromNumeric pfx id = name) := by
  constructor
  · intro pfx id hid
    rw [factoryFromNumeric, factoryFromStr, List.drop_left]
    rw [Nat.mod_eq_of_lt hid]
    rw [parseUsize_natChars (by omega), if_pos hid]
    rw [Option.map_some']
    simp only [Option.some.injEq]
    omega
  · rintro pfx name ⟨n, h1, h2, rfl⟩
    refine ⟨n - 1, ?_, ?_⟩
    · rw [factoryFromStr, List.drop_left]
      rw [parseUsize_natChars h1, if_pos h2]
      rw [Option.map_some']
      simp only [Option.some.injEq]
      omega
    · rw [factoryFromNumeric]
      congr 1
      have : n - 1 + 1 = n := by omega
      rw [this, Nat.mod_eq_of_lt h2]

theorem claim_C8_witness :
    factoryFromStr layerPfx (factoryFromNumeric layerPfx 41) = some 41 :=
  claim_C8.1 layerPfx 41 (by norm_num)

/-! ## Catalogue and connect lemmas -/

theorem catalogInsert_keys (acc : List (Pair × Option Nat)) (e : Pair × Option Nat) :
    (catalogInsert acc e).map Prod.fst =
      if (acc.map Prod.fst).contains e.1 then acc.map Prod.fst
      else acc.map Prod.fst ++ [e.1] := by
  unfold catalogInsert
  by_cases hc : (acc.map Prod.fst).contains e.1
  · rw [if_pos hc, if_pos hc]
    by_cases hs : e.2.isSome
    · rw [if_pos hs, List.map_map]
      apply List.map_congr_left
      intro pr _
      by_cases hpr : pr.1 = e.1 <;> simp [hpr]
    · rw [if_neg hs]
  · rw [if_neg hc, if_neg hc, List.map_append]
    rfl

theorem catalog_keys_nodup (entries : List (Pair × Option Nat)) :
    ((entries.foldl catalogInsert []).map Prod.fst).Nodup := by
  suffices h : ∀ acc : List (Pair × Option Nat), (acc.map Prod.fst).Nodup →
      ((entries.foldl catalogInsert acc).map Prod.fst).Nodup by
    exact h [] (by simp)
  induction entries with
  | nil => intro acc hacc; exact hacc
  | cons e entries ih =>
    intro acc hacc
    rw [List.foldl_cons]
    refine ih _ ?_
    rw [catalogInsert_keys]
    by_cases hc : (acc.map Prod.fst).contains e.1
    · rwa [if_pos hc]
    · rw [if_neg hc]
      have hnm : e.1 ∉ acc.map Prod.fst := by
        intro hm
        apply hc
        simpa using hm
      simp [List.nodup_append, hacc, hnm]

theorem positionsCatalog_keys_nodup (conn_pins : List Nat) (segments : List Route)
    (pin_position : Nat → Option Pair) :
    ((positionsCatalog conn_pins segments pin_position).map Prod.fst).Nodup :=
  catalog_keys_nodup _

theorem set_self_of_getElem {α : Type} {l : List α} {i : Nat} {a : α}
    (h : l[i]? = some a) : l.set i a = l := by
  apply List.ext_getElem?
  intro j
  by_cases hj : j = i
  · subst hj
    rw [List.getElem?_set_eq_of_lt a (List.getElem?_eq_some.mp h).choose, h]
  · rw [List.getElem?_set_ne (fun hc => hj hc.symm)]

theorem pos_inj {P : List Pair} {nodes : List NetNode}
    (hmap : nodes.map NetNode.position = P) (hnd : P.Nodup)
    {i j : Nat} (hi : i < nodes.length) (hj : j < nodes.length)
    (heq : (nodes[i]).position = (nodes[j]).position) : i = j := by
  have hlen : nodes.length = P.length := by
    rw [← hmap, List.length_map]
  have hip : i < P.length := by omega
  have hjp : j < P.length := by omega
  have h1 : P[i]? = some ((nodes[i]).position) := by
    rw [← hmap, List.getElem?_map, List.getElem?_eq_getElem hi]
    rfl
  have h2 : P[j]? = some ((nodes[j]).position) := by
    rw [← hmap, List.getElem?_map, List.getElem?_eq_getElem hj]
    rfl
  have e1 : P[i] = (nodes[i]).position := by
    have h3 := List.getElem?_eq_getElem hip
    rw [h1] at h3
    exact (Option.some.inj h3).symm
  have e2 : P[j] = (nodes[j]).position := by
    have h3 := List.getElem?_eq_getElem hjp
    rw [h2] at h3
    exact (Option.some.inj h3).symm
  have hPij : P[i] = P[j] := by rw [e1, e2, heq]
  exact (List.Nodup.getElem_inj_iff hnd).mp hPij

theorem succCol_unique_right {P : List Pair} {a b1 b2 : Pair}
    (h1 : SuccCol P a b1) (h2 : SuccCol P a b2)
    (hb1 : b1 ∈ P) (hb2 : b2 ∈ P) : b1 = b2 := by
  rcases lt_trichotomy b1.y b2.y with h | h | h
  · exact absurd ⟨h1.1.symm, h1.2.1, h⟩ (h2.2.2 b1 hb1)
  · exact Pair.ext2 (h1.1.symm.trans h2.1) h
  · exact absurd ⟨h2.1.symm, h2.2.1, h⟩ (h1.2.2 b2 hb2)

theorem succCol_unique_left {P : List Pair} {a1 a2 b : Pair}
    (h1 : SuccCol P a1 b) (h2 : SuccCol P a2 b)
    (ha1 : a1 ∈ P) (ha2 : a2 ∈ P) : a1 = a2 := by
  rcases lt_trichotomy a1.y a2.y with h | h | h
  · exact absurd ⟨h2.1.trans h1.1.symm, h, h2.2.1⟩ (h1.2.2 a2 ha2)
  · exact Pair.ext2 (h1.1.trans h2.1.symm) h
  · exact absurd ⟨h1.1.trans h2.1.symm, h, h1.2.1⟩ (h2.2.2 a1 ha1)

theorem succRow_unique_right {P : List Pair} {a b1 b2 : Pair}
    (h1 : SuccRow P a b1) (h2 : SuccRow P a b2)
    (hb1 : b1 ∈ P) (hb2 : b2 ∈ P) : b1 = b2 := by
  rcases lt_trichotomy b1.x b2.x with h | h | h
  · exact absurd ⟨h1.1.symm, h1.2.1, h⟩ (h2.2.2 b1 hb1)
  · exact Pair.ext2 h (h1.1.symm.trans h2.1)
  · exact absurd ⟨h2.1.symm, h2.2.1, h⟩ (h1.2.2 b2 hb2)

theorem succRow_unique_left {P : List Pair} {a1 a2 b : Pair}
    (h1 : SuccRow P a1 b) (h2 : SuccRow P a2 b)
    (ha1 : a1 ∈ P) (ha2 : a2 ∈ P) : a1 = a2 := by
  rcases lt_trichotomy a1.x a2.x with h | h | h
  · exact absurd ⟨h2.1.trans h1.1.symm, h, h2.2.1⟩ (h1.2.2 a2 ha2)
  · exact Pair.ext2 h (h1.1.trans h2.1.symm)
  · exact absurd ⟨h1.1.trans h2.1.symm, h, h1.2.1⟩ (h2.2.2 a1 ha1)

theorem findIdx_lookup {P : List Pair} {p : Pair} {i : Nat}
    (h : P.findIdx? (fun q => q == p) = some i) :
    ∃ hi : i < P.length, P[i] = p := by
  obtain ⟨hi, hp, -⟩ := List.findIdx?_eq_some_iff_getElem.mp h
  exact ⟨hi, by simpa using hp⟩

theorem lookup_of_mem {P : List Pair} {p : Pair} (h : p ∈ P) :
    ∃ i, P.findIdx? (fun q => q == p) = some i :=
  ⟨_, List.findIdx?_eq_some_of_exists ⟨p, h, by simp⟩⟩


theorem setNodeSlot_map_position (h : Nat) (nodes : List NetNode) (si oi : Nat)
    (d : Towards) :
    (setNodeSlot h nodes si oi d).map NetNode.position =
      nodes.map NetNode.position := by
  unfold setNodeSlot
  cases hnds : nodes[si]? with
  | none => rfl
  | some nd =>
    have hself : ∀ nd1 : NetNode, nd1.position = nd.position →
        (nodes.set si nd1).map NetNode.position = nodes.map NetNode.position := by
      intro nd1 hpos
      rw [List.map_set, hpos]
      exact set_self_of_getElem
        (show (nodes.map NetNode.position)[si]? = some nd.position by
          rw [List.getElem?_map, hnds]; rfl)
    cases d <;> exact hself _ rfl

theorem setNodeSlot_length (h : Nat) (nodes : List NetNode) (si oi : Nat)
    (d : Towards) : (setNodeSlot h nodes si oi d).length = nodes.length := by
  unfold setNodeSlot
  cases hnds : nodes[si]? with
  | none => rfl
  | some nd => cases d <;> simp

theorem slotAt_setNodeSlot {h : Nat} {nodes : List NetNode} {si oi : Nat}
    {d : Towards} (hsi : si < nodes.length) :
    ∀ i e, slotAt (setNodeSlot h nodes si oi d) i e =
      if i = si ∧ e = d ∧ e ≠ Towards.Top ∧ e ≠ Towards.Bottom then some ⟨oi, h⟩
      else slotAt nodes i e := by
  intro i e
  obtain ⟨nds, hnds⟩ : ∃ nd, nodes[si]? = some nd :=
    ⟨nodes[si], List.getElem?_eq_getElem hsi⟩
  unfold setNodeSlot
  rw [hnds]
  dsimp only
  by_cases hi : i = si
  · subst hi
    rw [slotAt]
    cases d <;>
      rw [List.getElem?_set_eq_of_lt _ hsi] <;>
      cases e <;>
      simp [slotAt, NetNode.index, hnds]
  · have hne : ∀ nd1 : NetNode, slotAt (nodes.set si nd1) i e = slotAt nodes i e := by
      intro nd1
      rw [slotAt, slotAt, List.getElem?_set_ne (fun hc => hi hc.symm)]
    cases d <;> rw [hne] <;> simp [hi]

theorem slotAt_connect_planar {nodes : List NetNode} {s o w : Nat} {d : Towards}
    (hd : d = Towards.Up ∨ d = Towards.Right)
    (hs : s < nodes.length) (ho : o < nodes.length) (hso : s ≠ o) :
    ∀ i e, slotAt (NetTree.connect nodes s o w d) i e =
      if i = s ∧ e = d then some ⟨o, w⟩
      else if i = o ∧ e = d.inv then some ⟨s, w⟩
      else slotAt nodes i e := by
  intro i e
  unfold NetTree.connect
  have hlen1 : (setNodeSlot w nodes s o d).length = nodes.length :=
    setNodeSlot_length w nodes s o d
  rw [slotAt_setNodeSlot (show o < (setNodeSlot w nodes s o d).length by
    rw [hlen1]; exact ho)]
  rw [slotAt_setNodeSlot hs]
  rcases hd with rfl | rfl <;> by_cases hi1 : i = s <;> by_cases hi2 : i = o <;>
    cases e <;> simp_all [Towards.inv]

theorem connect_map_position (nodes : List NetNode) (s o hgt : Nat) (d : Towards) :
    (NetTree.connect nodes s o hgt d).map NetNode.position =
      nodes.map NetNode.position := by
  unfold NetTree.connect
  rw [setNodeSlot_map_position, setNodeSlot_map_position]

theorem pos_mem {P : List Pair} {nodes : List NetNode}
    (hmap : nodes.map NetNode.position = P) {i : Nat} {pi : Pair}
    (h : Option.map NetNode.position nodes[i]? = some pi) : pi ∈ P := by
  cases hnd : nodes[i]? with
  | none => rw [hnd] at h; exact absurd h (by simp)
  | some nd =>
    rw [hnd] at h
    obtain rfl : nd.position = pi := by simpa using h
    rw [← hmap]
    exact List.mem_map_of_mem _ (List.getElem?_mem hnd)

theorem slotAt_lt {nodes : List NetNode} {i : Nat} {d : Towards} {p : Pointer}
    (h : slotAt nodes i d = some p) : i < nodes.length := by
  rw [slotAt] at h
  cases hnd : nodes[i]? with
  | none => rw [hnd] at h; exact absurd h (by simp)
  | some nd => exact (List.getElem?_eq_some.mp hnd).choose

theorem symgeo_connect_up {P : List Pair} {nodes : List NetNode} (hnd : P.Nodup)
    (hinv : SymGeo P nodes) {s o hgt : Nat}
    (hs : s < nodes.length) (ho : o < nodes.length)
    {ps po : Pair}
    (hps : Option.map NetNode.position nodes[s]? = some ps)
    (hpo : Option.map NetNode.position nodes[o]? = some po)
    (hsucc : SuccCol P ps po) :
    SymGeo P (NetTree.connect nodes s o hgt Towards.Up) := by
  have hso : s ≠ o := by
    intro hc
    subst hc
    rw [hps] at hpo
    obtain rfl : ps = po := by simpa using hpo
    exact absurd hsucc.2.1 (lt_irrefl _)
  have hslot := slotAt_connect_planar (Or.inl rfl) hs ho hso (w := hgt)
  simp only [Towards.inv] at hslot
  have hposi : ∀ i : Nat,
      Option.map NetNode.position (NetTree.connect nodes s o hgt Towards.Up)[i]? =
      Option.map NetNode.position nodes[i]? := by
    intro i
    have hcg := congrArg (fun l => l[i]?) (connect_map_position nodes s o hgt Towards.Up)
    simpa [List.getElem?_map] using hcg
  obtain ⟨hmap, hup, hdown, hright, hleft⟩ := hinv
  refine ⟨by rw [connect_map_position]; exact hmap, ?_, ?_, ?_, ?_⟩
  · -- Up slots of the new array
    intro i j hgt2 hij
    rw [hslot i Towards.Up] at hij
    simp only [and_true, reduceCtorEq, and_false, if_false] at hij
    by_cases hi : i = s
    · rw [if_pos hi] at hij
      obtain ⟨rfl, rfl⟩ : o = j ∧ hgt = hgt2 := by
        have := Option.some.inj hij
        exact ⟨congrArg Pointer.index this, congrArg Pointer.height this⟩
      subst hi
      refine ⟨?_, ps, po, by rw [hposi]; exact hps, by rw [hposi]; exact hpo, hsucc⟩
      rw [hslot o Towards.Down]
      simp [hso.symm]
    · rw [if_neg hi] at hij
      obtain ⟨hsym, pi, pj, hpi, hpj, hgeo⟩ := hup i j hgt2 hij
      refine ⟨?_, pi, pj, by rw [hposi]; exact hpi, by rw [hposi]; exact hpj, hgeo⟩
      rw [hslot j Towards.Down]
      simp only [reduceCtorEq, and_false, if_false, and_true]
      have hj : j ≠ o := by
        intro hc
        subst hc
        rw [hpo] at hpj
        obtain rfl : po = pj := by simpa using hpj
        have hpiP : pi ∈ P := pos_mem hmap hpi
        have hpsP : ps ∈ P := pos_mem hmap hps
        have : pi = ps := succCol_unique_left hgeo hsucc hpiP hpsP
        subst this
        have hilt : i < nodes.length := slotAt_lt hij
        apply hi
        apply pos_inj hmap hnd hilt hs
        · cases hndi : nodes[i]? with
          | none => rw [hndi] at hpi; exact absurd hpi (by simp)
          | some ndi =>
            cases hnds : nodes[s]? with
            | none => rw [hnds] at hps; exact absurd hps (by simp)
            | some nds =>
              rw [hndi] at hpi
              rw [hnds] at hps
              have e1 : nodes[i] = ndi := by
                have := List.getElem?_eq_getElem hilt
                rw [hndi] at this
                exact (Option.some.inj this).symm
              have e2 : nodes[s] = nds := by
                have := List.getElem?_eq_getElem hs
                rw [hnds] at this
                exact (Option.some.inj this).symm
              rw [e1, e2]
              have v1 : ndi.position = pi := by simpa using hpi
              have v2 : nds.position = pi := by simpa using hps
              rw [v1, v2]
      rw [if_neg hj]
      exact hsym
  · -- Down slots of the new array
    intro i j hgt2 hij
    rw [hslot i Towards.Down] at hij
    simp only [reduceCtorEq, and_false, if_false, and_true] at hij
    by_cases hi : i = o
    · rw [if_pos hi] at hij
      obtain ⟨rfl, rfl⟩ : s = j ∧ hgt = hgt2 := by
        have := Option.some.inj hij
        exact ⟨congrArg Pointer.index this, congrArg Pointer.height this⟩
      subst hi
      refine ⟨?_, po, ps, by rw [hposi]; exact hpo, by rw [hposi]; exact hps, hsucc⟩
      rw [hslot s Towards.Up]
      simp
    · rw [if_neg hi] at hij
      obtain ⟨hsym, pi, pj, hpi, hpj, hgeo⟩ := hdown i j hgt2 hij
      refine ⟨?_, pi, pj, by rw [hposi]; exact hpi, by rw [hposi]; exact hpj, hgeo⟩
      rw [hslot j Towards.Up]
      simp only [and_true, reduceCtorEq, and_false, if_false]
      have hj : j ≠ s := by
        intro hc
        subst hc
        rw [hps] at hpj
        obtain rfl : ps = pj := by simpa using hpj
        have hpiP : pi ∈ P := pos_mem hmap hpi
        have hpoP : po ∈ P := pos_mem hmap hpo
        have : pi = po := succCol_unique_right hgeo hsucc hpiP hpoP
        subst this
        have hilt : i < nodes.length := slotAt_lt hij
        apply hi
        apply pos_inj hmap hnd hilt ho
        · cases hndi : nodes[i]? with
          | none => rw [hndi] at hpi; exact absurd hpi (by simp)
          | some ndi =>
            cases hndo : nodes[o]? with
            | none => rw [hndo] at hpo; exact absurd hpo (by simp)
            | some ndo =>
              rw [hndi] at hpi
              rw [hndo] at hpo
              have e1 : nodes[i] = ndi := by
                have := List.getElem?_eq_getElem hilt
                rw [hndi] at this
                exact (Option.some.inj this).symm
              have e2 : nodes[o] = ndo := by
                have := List.getElem?_eq_getElem ho
                rw [hndo] at this
                exact (Option.some.inj this).symm
              rw [e1, e2]
              have v1 : ndi.position = pi := by simpa using hpi
              have v2 : ndo.position = pi := by simpa using hpo
              rw [v1, v2]
      rw [if_neg hj]
      exact hsym
  · -- Right slots unchanged
    intro i j hgt2 hij
    rw [hslot i Towards.Right] at hij
    simp only [reduceCtorEq, and_false, if_false] at hij
    obtain ⟨hsym, pi, pj, hpi, hpj, hgeo⟩ := hright i j hgt2 hij
    refine ⟨?_, pi, pj, by rw [hposi]; exact hpi, by rw [hposi]; exact hpj, hgeo⟩
    rw [hslot j Towards.Left]
    simp only [reduceCtorEq, and_false, if_false]
    exact hsym
  · -- Left slots unchanged
    intro i j hgt2 hij
    rw [hslot i Towards.Left] at hij
    simp only [reduceCtorEq, and_false, if_false] at hij
    obtain ⟨hsym, pi, pj, hpi, hpj, hgeo⟩ := hleft i j hgt2 hij
    refine ⟨?_, pi, pj, by rw [hposi]; exact hpi, by rw [hposi]; exact hpj, hgeo⟩
    rw [hslot j Towards.Right]
    simp only [reduceCtorEq, and_false, if_false]
    exact hsym

theorem symgeo_connect_right {P : List Pair} {nodes : List NetNode} (hnd : P.Nodup)
    (hinv : SymGeo P nodes) {s o hgt : Nat}
    (hs : s < nodes.length) (ho : o < nodes.length)
    {ps po : Pair}
    (hps : Option.map NetNode.position nodes[s]? = some ps)
    (hpo : Option.map NetNode.position nodes[o]? = some po)
    (hsucc : SuccRow P ps po) :
    SymGeo P (NetTree.connect nodes s o hgt Towards.Right) := by
  have hso : s ≠ o := by
    intro hc
    subst hc
    rw [hps] at hpo
    obtain rfl : ps = po := by simpa using hpo
    exact absurd hsucc.2.1 (lt_irrefl _)
  have hslot := slotAt_connect_planar (Or.inr rfl) hs ho hso (w := hgt)
  simp only [Towards.inv] at hslot
  have hposi : ∀ i : Nat,
      Option.map NetNode.position (NetTree.connect nodes s o hgt Towards.Right)[i]? =
      Option.map NetNode.position nodes[i]? := by
    intro i
    have hcg := congrArg (fun l => l[i]?)
      (connect_map_position nodes s o hgt Towards.Right)
    simpa [List.getElem?_map] using hcg
  obtain ⟨hmap, hup, hdown, hright, hleft⟩ := hinv
  refine ⟨by rw [connect_map_position]; exact hmap, ?_, ?_, ?_, ?_⟩
  · -- Up slots unchanged
    intro i j hgt2 hij
    rw [hslot i Towards.Up] at hij
    simp only [reduceCtorEq, and_false, if_false] at hij
    obtain ⟨hsym, pi, pj, hpi, hpj, hgeo⟩ := hup i j hgt2 hij
    refine ⟨?_, pi, pj, by rw [hposi]; exact hpi, by rw [hposi]; exact hpj, hgeo⟩
    rw [hslot j Towards.Down]
    simp only [reduceCtorEq, and_false, if_false]
    exact hsym
  · -- Down slots unchanged
    intro i j hgt2 hij
    rw [hslot i Towards.Down] at hij
    simp only [reduceCtorEq, and_false, if_false] at hij
    obtain ⟨hsym, pi, pj, hpi, hpj, hgeo⟩ := hdown i j hgt2 hij
    refine ⟨?_, pi, pj, by rw [hposi]; exact hpi, by rw [hposi]; exact hpj, hgeo⟩
    rw [hslot j Towards.Up]
    simp only [reduceCtorEq, and_false, if_false]
    exact hsym
  · -- Right slots of the new array
    intro i j hgt2 hij
    rw [hslot i Towards.Right] at hij
    simp only [and_true, reduceCtorEq, and_false, if_false] at hij
    by_cases hi : i = s
    · rw [if_pos hi] at hij
      obtain ⟨rfl, rfl⟩ : o = j ∧ hgt = hgt2 := by
        have := Option.some.inj hij
        exact ⟨congrArg Pointer.index this, congrArg Pointer.height this⟩
      subst hi
      refine ⟨?_, ps, po, by rw [hposi]; exact hps, by rw [hposi]; exact hpo, hsucc⟩
      rw [hslot o Towards.Left]
      simp [hso.symm]
    · rw [if_neg hi] at hij
      obtain ⟨hsym, pi, pj, hpi, hpj, hgeo⟩ := hright i j hgt2 hij
      refine ⟨?_, pi, pj, by rw [hposi]; exact hpi, by rw [hposi]; exact hpj, hgeo⟩
      rw [hslot j Towards.Left]
      simp only [reduceCtorEq, and_false, if_false, and_true]
      have hj : j ≠ o := by
        intro hc
        subst hc
        rw [hpo] at hpj
        obtain rfl : po = pj := by simpa using hpj
        have hpiP : pi ∈ P := pos_mem hmap hpi
        have hpsP : ps ∈ P := pos_mem hmap hps
        have : pi = ps := succRow_unique_left hgeo hsucc hpiP hpsP
        subst this
        have hilt : i < nodes.length := slotAt_lt hij
        apply hi
        apply pos_inj hmap hnd hilt hs
        · cases hndi : nodes[i]? with
          | none => rw [hndi] at hpi; exact absurd hpi (by simp)
          | some ndi =>
            cases hnds : nodes[s]? with
            | none => rw [hnds] at hps; exact absurd hps (by simp)
            | some nds =>
              rw [hndi] at hpi
              rw [hnds] at hps
              have e1 : nodes[i] = ndi := by
                have := List.getElem?_eq_getElem hilt
                rw [hndi] at this
                exact (Option.some.inj this).symm
              have e2 : nodes[s] = nds := by
                have := List.getElem?_eq_getElem hs
                rw [hnds] at this
                exact (Option.some.inj this).symm
              rw [e1, e2]
              have v1 : ndi.position = pi := by simpa using hpi
              have v2 : nds.position = pi := by simpa using hps
              rw [v1, v2]
      rw [if_neg hj]
      exact hsym
  · -- Left slots of the new array
    intro i j hgt2 hij
    rw [hslot i Towards.Left] at hij
    simp only [reduceCtorEq, and_false, if_false, and_true] at hij
    by_cases hi : i = o
    · rw [if_pos hi] at hij
      obtain ⟨rfl, rfl⟩ : s = j ∧ hgt = hgt2 := by
        have := Option.some.inj hij
        exact ⟨congrArg Pointer.index this, congrArg Pointer.height this⟩
      subst hi
      refine ⟨?_, po, ps, by rw [hposi]; exact hpo, by rw [hposi]; exact hps, hsucc⟩
      rw [hslot s Towards.Right]
      simp
    · rw [if_neg hi] at hij
      obtain ⟨hsym, pi, pj, hpi, hpj, hgeo⟩ := hleft i j hgt2 hij
      refine ⟨?_, pi, pj, by rw [hposi]; exact hpi, by rw [hposi]; exact hpj, hgeo⟩
      rw [hslot j Towards.Right]
      simp only [and_true, reduceCtorEq, and_false, if_false]
      have hj : j ≠ s := by
        intro hc
        subst hc
        rw [hps] at hpj
        obtain rfl : ps = pj := by simpa using hpj
        have hpiP : pi ∈ P := pos_mem hmap hpi
        have hpoP : po ∈ P := pos_mem hmap hpo
        have : pi = po := succRow_unique_right hgeo hsucc hpiP hpoP
        subst this
        have hilt : i < nodes.length := slotAt_lt hij
        apply hi
        apply pos_inj hmap hnd hilt ho
        · cases hndi : nodes[i]? with
          | none => rw [hndi] at hpi; exact absurd hpi (by simp)
          | some ndi =>
            cases hndo : nodes[o]? with
            | none => rw [hndo] at hpo; exact absurd hpo (by simp)
            | some ndo =>
              rw [hndi] at hpi
              rw [hndo] at hpo
              have e1 : nodes[i] = ndi := by
                have := List.getElem?_eq_getElem hilt
                rw [hndi] at this
                exact (Option.some.inj this).symm
              have e2 : nodes[o] = ndo := by
                have := List.getElem?_eq_getElem ho
                rw [hndo] at this
                exact (Option.some.inj this).symm
              rw [e1, e2]
              have v1 : ndi.position = pi := by simpa using hpi
              have v2 : ndo.position = pi := by simpa using hpo
              rw [v1, v2]
      rw [if_neg hj]
      exact hsym

theorem buildStep_symgeo {P : List Pair} (hnd : P.Nodup) {fuel : Nat}
    {st : UnionFind × List NetNode} (hinv : SymGeo P st.2) {e : Route}
    (hshape :
      (e.towards = some Towards.Up ∧ e.source.lay = e.target.lay ∧
        e.source.flatten ∈ P ∧ e.target.flatten ∈ P ∧
        SuccCol P e.source.flatten e.target.flatten) ∨
      (e.towards = some Towards.Right ∧ e.source.lay = e.target.lay ∧
        e.source.flatten ∈ P ∧ e.target.flatten ∈ P ∧
        SuccRow P e.source.flatten e.target.flatten)) :
    SymGeo P (NetTree.buildStep (fun p => P.findIdx? (fun q => q == p)) fuel st e).2 := by
  have hlen : st.2.length = P.length := by
    rw [← hinv.1, List.length_map]
  rcases hshape with ⟨htow, hlay, hsm, htm, hsucc⟩ | ⟨htow, hlay, hsm, htm, hsucc⟩
  · obtain ⟨s, hls⟩ := lookup_of_mem hsm
    obtain ⟨t, hlt⟩ := lookup_of_mem htm
    obtain ⟨hsP, hsPv⟩ := findIdx_lookup hls
    obtain ⟨htP, htPv⟩ := findIdx_lookup hlt
    have hposs : Option.map NetNode.position st.2[s]? = some e.source.flatten := by
      have hcg := congrArg (fun l => l[s]?) hinv.1
      simp only [List.getElem?_map] at hcg
      rw [hcg, List.getElem?_eq_getElem hsP, hsPv]
    have hpost : Option.map NetNode.position st.2[t]? = some e.target.flatten := by
      have hcg := congrArg (fun l => l[t]?) hinv.1
      simp only [List.getElem?_map] at hcg
      rw [hcg, List.getElem?_eq_getElem htP, htPv]
    unfold NetTree.buildStep
    rw [htow]
    dsimp only
    rw [hls, hlt]
    dsimp only
    cases huc : unionChecked fuel st.1 s t with
    | none => exact hinv
    | some p =>
      obtain ⟨merged, uf2⟩ := p
      cases merged
      · exact hinv
      · exact symgeo_connect_up hnd hinv (by omega) (by omega) hposs hpost hsucc
  · obtain ⟨s, hls⟩ := lookup_of_mem hsm
    obtain ⟨t, hlt⟩ := lookup_of_mem htm
    obtain ⟨hsP, hsPv⟩ := findIdx_lookup hls
    obtain ⟨htP, htPv⟩ := findIdx_lookup hlt
    have hposs : Option.map NetNode.position st.2[s]? = some e.source.flatten := by
      have hcg := congrArg (fun l => l[s]?) hinv.1
      simp only [List.getElem?_map] at hcg
      rw [hcg, List.getElem?_eq_getElem hsP, hsPv]
    have hpost : Option.map NetNode.position st.2[t]? = some e.target.flatten := by
      have hcg := congrArg (fun l => l[t]?) hinv.1
      simp only [List.getElem?_map] at hcg
      rw [hcg, List.getElem?_eq_getElem htP, htPv]
    unfold NetTree.buildStep
    rw [htow]
    dsimp only
    rw [hls, hlt]
    dsimp only
    cases huc : unionChecked fuel st.1 s t with
    | none => exact hinv
    | some p =>
      obtain ⟨merged, uf2⟩ := p
      cases merged
      · exact hinv
      · exact symgeo_connect_right hnd hinv (by omega) (by omega) hposs hpost hsucc

theorem foldl_buildStep_symgeo {P : List Pair} (hnd : P.Nodup) (fuel : Nat)
    (atomic : List Route)
    (hshape : ∀ e ∈ atomic,
      (e.towards = some Towards.Up ∧ e.source.lay = e.target.lay ∧
        e.source.flatten ∈ P ∧ e.target.flatten ∈ P ∧
        SuccCol P e.source.flatten e.target.flatten) ∨
      (e.towards = some Towards.Right ∧ e.source.lay = e.target.lay ∧
        e.source.flatten ∈ P ∧ e.target.flatten ∈ P ∧
        SuccRow P e.source.flatten e.target.flatten))
    (st : UnionFind × List NetNode) (hinv : SymGeo P st.2) :
    SymGeo P (atomic.foldl
      (NetTree.buildStep (fun p => P.findIdx? (fun q => q == p)) fuel) st).2 := by
  induction atomic generalizing st with
  | nil => exact hinv
  | cons e rest ih =>
    rw [List.foldl_cons]
    exact ih (fun x hx => hshape x (by simp [hx])) _
      (buildStep_symgeo hnd hinv (hshape e (by simp)))

theorem symgeo_init (P : List Pair) (catalog : List (Pair × Option Nat))
    (hkeys : catalog.map Prod.fst = P) :
    SymGeo P (catalog.map
      (fun pr => (⟨pr.2, pr.1, none, none, none, none⟩ : NetNode))) := by
  have hslotnone : ∀ i (d : Towards),
      slotAt (catalog.map
        (fun pr => (⟨pr.2, pr.1, none, none, none, none⟩ : NetNode))) i d = none := by
    intro i d
    rw [slotAt]
    cases hget : (catalog.map
        (fun pr => (⟨pr.2, pr.1, none, none, none, none⟩ : NetNode)))[i]? with
    | none => rfl
    | some nd =>
      rw [List.getElem?_map] at hget
      cases hc : catalog[i]? with
      | none => rw [hc] at hget; exact absurd hget (by simp)
      | some pr =>
        rw [hc] at hget
        obtain rfl : (⟨pr.2, pr.1, none, none, none, none⟩ : NetNode) = nd := by
          simpa using hget
        cases d <;> rfl
  refine ⟨?_, ?_, ?_, ?_, ?_⟩
  · rw [List.map_map, ← hkeys]
    exact List.map_congr_left (fun pr _ => rfl)
  all_goals
    intro i j hgt h
    rw [hslotnone] at h
    exact absurd h (by simp)

theorem build_symgeo (conn_pins : List Nat) (segments : List Route)
    (pin_position : Nat → Option Pair) :
    SymGeo ((positionsCatalog conn_pins segments pin_position).map Prod.fst)
      (NetTree.build conn_pins segments pin_position).2 := by
  have hnd := positionsCatalog_keys_nodup conn_pins segments pin_position
  unfold NetTree.build
  exact foldl_buildStep_symgeo hnd _ _
    (fun e he => atomic_shape hnd he) _ (symgeo_init _ _ rfl)

/-- Claim C3: after `NetTree::new` completes, the planar neighbour pointers
are symmetric: whenever slot `d` of node `i` holds `Pointer(j, h)`, the
opposite slot of node `j` holds `Pointer(i, h)`. -/
theorem claim_C3 {conn_pins : List Nat} {segments : List Route}
    {pin_position : Nat → Option Pair} {i j hgt : Nat} {d : Towards}
    (hd1 : d ≠ Towards.Top) (hd2 : d ≠ Towards.Bottom)
    (h : slotAt (NetTree.new conn_pins segments pin_position).nodes i d =
      some ⟨j, hgt⟩) :
    slotAt (NetTree.new conn_pins segments pin_position).nodes j d.inv =
      some ⟨i, hgt⟩ := by
  have hsg := build_symgeo conn_pins segments pin_position
  have hnodes : (NetTree.new conn_pins segments pin_position).nodes =
      (NetTree.build conn_pins segments pin_position).2 := rfl
  rw [hnodes] at h ⊢
  cases d with
  | Up => exact (hsg.2.1 i j hgt h).1
  | Down => exact (hsg.2.2.1 i j hgt h).1
  | Right => exact (hsg.2.2.2.1 i j hgt h).1
  | Left => exact (hsg.2.2.2.2 i j hgt h).1
  | Top => exact absurd rfl hd1
  | Bottom => exact absurd rfl hd2

theorem claim_C3_witness :
    slotAt (NetTree.new [0, 1] [⟨⟨1, 1, 1⟩, ⟨1, 2, 1⟩⟩]
        (fun p => if p = 0 then some ⟨1, 1⟩ else some ⟨1, 2⟩)).nodes
      1 (Towards.inv Towards.Up) = some ⟨0, 1⟩ :=
  claim_C3 (d := Towards.Up) (by decide) (by decide) (by decide)
